import Mathlib

/-!
Verification development for the sbomasm field-reconciliation engine
(`pkg/edit/spdx_edit.go`) and hierarchical merge engine
(`pkg/assemble/spdx/merge.go`).

The Go code is shallowly embedded: structs become Lean structures, nil
pointers and nil slices become `Option`, in-place mutation becomes explicit
state passing, and a Go runtime panic (nil dereference or library panic) is
modelled as an `Option.none` / dedicated failure result.  The process clock
(`utcNowTime`) is modelled as an explicit input carried by the
configuration, and `uuid.New()` is modelled as a fresh-identifier generator
whose draws are pairwise distinct and distinct from every input-supplied
identifier (reflecting uuid uniqueness); identifiers are therefore an
inductive type with separate constructors for input identifiers and
generated identifiers.
-/

namespace Sbomasm

/-! ### Character-level string helpers

Kernel-reducible models of the string functions the Go code uses
(`strings.HasPrefix`, `strings.ToLower` on the ASCII range that SPDX
reference kinds use, `strconv` digit parsing, splitting on dots). -/

/-- The first list is a prefix of the second. -/
def listIsPrefixB : List Char → List Char → Bool
  | [], _ => true
  | _ :: _, [] => false
  | a :: as, b :: bs => a == b && listIsPrefixB as bs

/-- Models `strings.HasPrefix` / `String.startsWith`: `pre` begins `s`. -/
def strStartsWith (s pre : String) : Bool :=
  listIsPrefixB pre.data s.data

/-- Lower-case one ASCII letter. -/
def charToLower (ch : Char) : Char :=
  if 'A' ≤ ch ∧ ch ≤ 'Z' then Char.ofNat (ch.toNat + 32) else ch

/-- Models `strings.ToLower` on ASCII data (the reference kinds compared
here are ASCII). -/
def strToLower (s : String) : String :=
  String.mk (s.data.map charToLower)

/-- Parse a nonempty all-digit character list as a natural number. -/
def digitsToNat? (l : List Char) : Option Nat :=
  if l.isEmpty then none
  else if l.all (fun ch => decide ('0' ≤ ch) && decide (ch ≤ '9')) then
    some (l.foldl (fun n ch => n * 10 + (ch.toNat - 48)) 0)
  else none

/-- Models `strconv.ParseUint` on a decimal component. -/
def strToNat? (s : String) : Option Nat :=
  digitsToNat? s.data

/-- Split a character list on the dot character. -/
def splitDotChars : List Char → List (List Char)
  | [] => [[]]
  | ch :: rest =>
    let r := splitDotChars rest
    if ch = '.' then [] :: r
    else
      match r with
      | h :: t => (ch :: h) :: t
      | [] => [[ch]]

/-- Split a string into its dot-separated components. -/
def splitOnDots (s : String) : List String :=
  (splitDotChars s.data).map String.mk

/-- One SPDX creator entry (`common.Creator`): a type tag
(Person / Organization / Tool) and a display string. -/
structure Creator where
  creatorType : String := ""
  creator : String := ""
deriving DecidableEq, Repr, Inhabited

/-- SPDX creation metadata (`v2_3.CreationInfo`), restricted to the fields
the two engines touch.  `creators := none` models a nil Go slice. -/
structure CreationInfo where
  created : String := ""
  creators : Option (List Creator) := none
  creatorComment : String := ""
  licenseListVersion : String := ""
deriving DecidableEq, Repr, Inhabited

/-- A typed external reference on a package
(`spdx.PackageExternalReference`). -/
structure ExtRef where
  category : String := ""
  refType : String := ""
  locator : String := ""
deriving DecidableEq, Repr, Inhabited

/-- One checksum entry (`common.Checksum`). -/
structure Checksum where
  algorithm : String := ""
  value : String := ""
deriving DecidableEq, Repr, Inhabited

/-- A package supplier (`common.Supplier`). -/
structure Supplier where
  supplierType : String := ""
  supplier : String := ""
deriving DecidableEq, Repr, Inhabited

/-! ## Edit engine data model (`pkg/edit/spdx_edit.go`) -/

/-- The fields of `spdx.Package` that the edit engine reads or writes.
`Option` fields model nillable Go pointers/slices. -/
structure EditPkg where
  packageName : String := ""
  packageVersion : String := ""
  packageSupplier : Option Supplier := none
  packageExternalReferences : Option (List ExtRef) := none
  packageLicenseConcluded : String := ""
  packageChecksums : Option (List Checksum) := none
  packageCopyrightText : String := ""
  packageDescription : String := ""
  packageDownloadLocation : String := ""
  primaryPackagePurpose : String := ""
deriving DecidableEq, Repr, Inhabited

/-- The fields of `spdx.Document` that the edit engine reads or writes. -/
structure EditBom where
  dataLicense : String := ""
  documentComment : String := ""
  creationInfo : Option CreationInfo := none
deriving DecidableEq, Repr, Inhabited

/-- The edit policy configured for a run (`--missing`, `--append`, default
overwrite). -/
inductive Policy where
  | missing
  | append
  | overwrite
deriving DecidableEq, Repr, Inhabited

/-- The search subject of an edit run (`c.search.subject`). -/
inductive Subject where
  | document
  | primaryComponent
  | componentNameVersion
deriving DecidableEq, Repr, Inhabited

/-- A configured name/value pair (author, supplier, tool, hash entries). -/
structure NameValue where
  name : String := ""
  value : String := ""
deriving DecidableEq, Repr, Inhabited

/-- Modelled from the spec: `configParams` (defined in the edit package
outside `src/`).  A field is configured iff its option is `some` (its list
is nonempty for list-valued fields); `now` models the `utcNowTime()` clock
read as an explicit input. -/
structure ConfigParams where
  subject : Subject := .document
  policy : Policy := .overwrite
  name : Option String := none
  version : Option String := none
  supplier : Option NameValue := none
  authors : List NameValue := []
  purl : Option String := none
  cpe : Option String := none
  licenses : Option String := none
  hashes : List NameValue := []
  tools : List NameValue := []
  copyright : Option String := none
  lifecycles : List String := []
  description : Option String := none
  repository : Option String := none
  typ : Option String := none
  now : String := ""
deriving DecidableEq, Repr, Inhabited

/-- Modelled from the spec: the `shouldName` gate — a field with no
configured value is skipped. -/
def ConfigParams.shouldName (c : ConfigParams) : Bool := c.name.isSome

/-- Modelled from the spec: the `shouldVersion` gate. -/
def ConfigParams.shouldVersion (c : ConfigParams) : Bool := c.version.isSome

/-- Modelled from the spec: the `shouldSupplier` gate. -/
def ConfigParams.shouldSupplier (c : ConfigParams) : Bool := c.supplier.isSome

/-- Modelled from the spec: the `shouldAuthors` gate. -/
def ConfigParams.shouldAuthors (c : ConfigParams) : Bool := !c.authors.isEmpty

/-- Modelled from the spec: the `shouldPurl` gate. -/
def ConfigParams.shouldPurl (c : ConfigParams) : Bool := c.purl.isSome

/-- Modelled from the spec: the `shouldCpe` gate. -/
def ConfigParams.shouldCpe (c : ConfigParams) : Bool := c.cpe.isSome

/-- Modelled from the spec: the `shouldLicenses` gate. -/
def ConfigParams.shouldLicenses (c : ConfigParams) : Bool := c.licenses.isSome

/-- Modelled from the spec: the `shouldHashes` gate. -/
def ConfigParams.shouldHashes (c : ConfigParams) : Bool := !c.hashes.isEmpty

/-- Modelled from the spec: the `shouldCopyRight` gate. -/
def ConfigParams.shouldCopyRight (c : ConfigParams) : Bool := c.copyright.isSome

/-- Modelled from the spec: the `shouldLifeCycle` gate. -/
def ConfigParams.shouldLifeCycle (c : ConfigParams) : Bool := !c.lifecycles.isEmpty

/-- Modelled from the spec: the `shouldDescription` gate. -/
def ConfigParams.shouldDescription (c : ConfigParams) : Bool := c.description.isSome

/-- Modelled from the spec: the `shouldRepository` gate. -/
def ConfigParams.shouldRepository (c : ConfigParams) : Bool := c.repository.isSome

/-- Modelled from the spec: the `shouldTyp` gate. -/
def ConfigParams.shouldTyp (c : ConfigParams) : Bool := c.typ.isSome

/-- Modelled from the spec: `onMissing` — true when the configured policy
is `missing`. -/
def ConfigParams.onMissing (c : ConfigParams) : Bool :=
  match c.policy with
  | .missing => true
  | _ => false

/-- Modelled from the spec: `onAppend` — true when the configured policy
is `append`. -/
def ConfigParams.onAppend (c : ConfigParams) : Bool :=
  match c.policy with
  | .append => true
  | _ => false

/-- The edit engine's state: the document being edited plus the resolved
target package (`d.bom`, `d.pkg`); `pkg = none` models a nil `d.pkg`
(subject resolution failed or subject is the document). -/
structure EditState where
  bom : EditBom := {}
  pkg : Option EditPkg := none
deriving DecidableEq, Repr, Inhabited

/-- The non-fatal per-field error values of the edit engine. -/
inductive EditErr where
  | noConfiguration
  | notSupported
  | invalidInput
deriving DecidableEq, Repr

/-- Result of one field handler: success with the new state, a non-fatal
error leaving the state as recorded, or a Go runtime panic (`crash`,
raised on a nil `d.pkg` dereference). -/
inductive HRes where
  | ok (s : EditState)
  | err (e : EditErr) (s : EditState)
  | crash
deriving DecidableEq, Repr

/-- The running tool's name constant (`SBOMASM`). -/
def SBOMASM : String := "sbomasm"

/-- The running tool's version constant (`SBOMASM_VERSION`). -/
def SBOMASM_VERSION : String := "0.1.9"

namespace spdxEditDoc

/-- Handler for the `name` field (`spdxEditDoc.name`). -/
def name (c : ConfigParams) (s : EditState) : HRes :=
  if !c.shouldName then .err .noConfiguration s
  else if c.subject = .document then .err .notSupported s
  else
    match s.pkg with
    | none => .crash
    | some p =>
      if c.onMissing then
        if p.packageName = "" then
          .ok { s with pkg := some { p with packageName := c.name.getD "" } }
        else .ok s
      else .ok { s with pkg := some { p with packageName := c.name.getD "" } }

/-- Handler for the `version` field (`spdxEditDoc.version`). -/
def version (c : ConfigParams) (s : EditState) : HRes :=
  if !c.shouldVersion then .err .noConfiguration s
  else if c.subject = .document then .err .notSupported s
  else
    match s.pkg with
    | none => .crash
    | some p =>
      if c.onMissing then
        if p.packageVersion = "" then
          .ok { s with pkg := some { p with packageVersion := c.version.getD "" } }
        else .ok s
      else .ok { s with pkg := some { p with packageVersion := c.version.getD "" } }

/-- Handler for the `supplier` field (`spdxEditDoc.supplier`). -/
def supplier (c : ConfigParams) (s : EditState) : HRes :=
  if !c.shouldSupplier then .err .noConfiguration s
  else if c.subject = .document then .err .notSupported s
  else
    let nv := c.supplier.getD {}
    let sup : Supplier :=
      { supplierType := "Organization", supplier := nv.name ++ " (" ++ nv.value ++ ")" }
    match s.pkg with
    | none => .crash
    | some p =>
      if c.onMissing then
        if p.packageSupplier = none then
          .ok { s with pkg := some { p with packageSupplier := some sup } }
        else .ok s
      else .ok { s with pkg := some { p with packageSupplier := some sup } }

/-- Handler for the `authors` field (`spdxEditDoc.authors`); document scope
only. -/
def authors (c : ConfigParams) (s : EditState) : HRes :=
  if !c.shouldAuthors then .err .noConfiguration s
  else if !(c.subject = .document) then .err .notSupported s
  else
    let auths : List Creator :=
      c.authors.map (fun a =>
        { creatorType := "Person", creator := a.name ++ " (" ++ a.value ++ ")" })
    if c.onMissing then
      match s.bom.creationInfo with
      | none =>
        .ok { s with bom := { s.bom with creationInfo := some { creators := some auths } } }
      | some ci =>
        match ci.creators with
        | none =>
          .ok { s with bom := { s.bom with creationInfo := some { ci with creators := some auths } } }
        | some _ => .ok s
    else if c.onAppend then
      match s.bom.creationInfo with
      | none =>
        .ok { s with bom := { s.bom with creationInfo := some { creators := some auths } } }
      | some ci =>
        match ci.creators with
        | none =>
          .ok { s with bom := { s.bom with creationInfo := some { ci with creators := some auths } } }
        | some cur =>
          let cs := cur ++ auths
          .ok { s with bom := { s.bom with creationInfo := some { ci with creators := some cs } } }
    else
      match s.bom.creationInfo with
      | none =>
        .ok { s with bom := { s.bom with creationInfo := some { creators := some auths } } }
      | some ci =>
        .ok { s with bom := { s.bom with creationInfo := some { ci with creators := some auths } } }

/-- Handler for the `purl` field (`spdxEditDoc.purl`); component scope
only.  Under overwrite the existing references whose lower-cased ref type
equals the string "purl" are rejected before the new reference is
appended (`lo.Reject`). -/
def purl (c : ConfigParams) (s : EditState) : HRes :=
  if !c.shouldPurl then .err .noConfiguration s
  else if c.subject = .document then .err .notSupported s
  else
    match s.pkg with
    | none => .crash
    | some p =>
      let purlRef : ExtRef :=
        { category := "PACKAGE-MANAGER", refType := "purl", locator := c.purl.getD "" }
      let foundPurl := (p.packageExternalReferences.getD []).any (fun r => r.refType = "purl")
      if c.onMissing then
        if !foundPurl then
          let refs1 := (p.packageExternalReferences.getD []) ++ [purlRef]
          .ok { s with pkg := some { p with packageExternalReferences := some refs1 } }
        else .ok s
      else if c.onAppend then
        let refs1 := (p.packageExternalReferences.getD []) ++ [purlRef]
        .ok { s with pkg := some { p with packageExternalReferences := some refs1 } }
      else
        match p.packageExternalReferences with
        | none =>
          .ok { s with pkg := some { p with packageExternalReferences := some [purlRef] } }
        | some refs =>
          let extRef := refs.filter (fun x => !(strToLower x.refType = "purl"))
          let refs1 := extRef ++ [purlRef]
          .ok { s with pkg := some { p with packageExternalReferences := some refs1 } }

/-- Handler for the `cpe` field (`spdxEditDoc.cpe`); component scope only.
The overwrite branch rejects existing references whose lower-cased ref
type equals the mixed-case string "cpe23Type", exactly as the source
writes the comparison. -/
def cpe (c : ConfigParams) (s : EditState) : HRes :=
  if !c.shouldCpe then .err .noConfiguration s
  else if c.subject = .document then .err .notSupported s
  else
    match s.pkg with
    | none => .crash
    | some p =>
      let cpeRef : ExtRef :=
        { category := "SECURITY", refType := "cpe23Type", locator := c.cpe.getD "" }
      let foundCpe := (p.packageExternalReferences.getD []).any (fun r => r.refType = "cpe23Type")
      if c.onMissing then
        if !foundCpe then
          let refs1 := (p.packageExternalReferences.getD []) ++ [cpeRef]
          .ok { s with pkg := some { p with packageExternalReferences := some refs1 } }
        else .ok s
      else if c.onAppend then
        let refs1 := (p.packageExternalReferences.getD []) ++ [cpeRef]
        .ok { s with pkg := some { p with packageExternalReferences := some refs1 } }
      else
        match p.packageExternalReferences with
        | none =>
          .ok { s with pkg := some { p with packageExternalReferences := some [cpeRef] } }
        | some refs =>
          let extRef := refs.filter (fun x => !(strToLower x.refType = "cpe23Type"))
          let refs1 := extRef ++ [cpeRef]
          .ok { s with pkg := some { p with packageExternalReferences := some refs1 } }

/-- Modelled from the spec: `spdxConstructLicenses` (defined outside
`src/`) builds the license expression string from the configuration. -/
def spdxConstructLicenses (c : ConfigParams) : String := c.licenses.getD ""

/-- Handler for the `licenses` field (`spdxEditDoc.licenses`): document
scope writes the data license, component scope the concluded license. -/
def licenses (c : ConfigParams) (s : EditState) : HRes :=
  if !c.shouldLicenses then .err .noConfiguration s
  else
    let license := spdxConstructLicenses c
    if c.onMissing then
      if c.subject = .document then
        if s.bom.dataLicense = "" then
          .ok { s with bom := { s.bom with dataLicense := license } }
        else .ok s
      else
        match s.pkg with
        | none => .crash
        | some p =>
          if p.packageLicenseConcluded = "" then
            .ok { s with pkg := some { p with packageLicenseConcluded := license } }
          else .ok s
    else
      if c.subject = .document then
        .ok { s with bom := { s.bom with dataLicense := license } }
      else
        match s.pkg with
        | none => .crash
        | some p =>
          .ok { s with pkg := some { p with packageLicenseConcluded := license } }

/-- Modelled from the spec: `spdxConstructHashes` (defined outside `src/`)
builds the checksum list from the configuration, dropping entries with an
empty value. -/
def spdxConstructHashes (c : ConfigParams) : List Checksum :=
  (c.hashes.filter (fun h => !(h.value = ""))).map
    (fun h => { algorithm := h.name, value := h.value })

/-- Handler for the `hashes` field (`spdxEditDoc.hashes`); component scope
only. -/
def hashes (c : ConfigParams) (s : EditState) : HRes :=
  if !c.shouldHashes then .err .noConfiguration s
  else if c.subject = .document then .err .notSupported s
  else
    match s.pkg with
    | none => .crash
    | some p =>
      let hs := spdxConstructHashes c
      if c.onMissing then
        if p.packageChecksums = none then
          .ok { s with pkg := some { p with packageChecksums := some hs } }
        else .ok s
      else if c.onAppend then
        match p.packageChecksums with
        | none => .ok { s with pkg := some { p with packageChecksums := some hs } }
        | some cur => .ok { s with pkg := some { p with packageChecksums := some (cur ++ hs) } }
      else .ok { s with pkg := some { p with packageChecksums := some hs } }

end spdxEditDoc

/-- `removeCreator`: drop every creator whose display string starts with
the given name. -/
def removeCreator (creators : List Creator) (creatorName : String) : List Creator :=
  creators.filter (fun c => !(strStartsWith c.creator creatorName))

/-- `creatorExists`: a creator with the same display string and the same
type is already present. -/
def creatorExists (creators : List Creator) (creator : Creator) : Bool :=
  creators.any (fun c => c.creator = creator.creator && c.creatorType = creator.creatorType)

/-- `spdxUniqueCreators`: append the new creators whose display string is
not already present; the membership set is taken from the existing list
once, before any append. -/
def spdxUniqueCreators (existing newCreators : List Creator) : List Creator :=
  let creatorSet := existing.map (fun c => c.creator)
  newCreators.foldl
    (fun acc c => if creatorSet.contains c.creator then acc else acc ++ [c]) existing

/-- Modelled from the spec: `spdxConstructTools` (defined outside `src/`)
builds Tool-typed creator entries, displayed as name-value, from the
configured tool list. -/
def spdxConstructTools (c : ConfigParams) : List Creator :=
  c.tools.map (fun t => { creatorType := "Tool", creator := t.name ++ "-" ++ t.value })

namespace spdxEditDoc

/-- Handler for the `tools` field (`spdxEditDoc.tools`).  Not gated on
configuration: the running tool always stamps itself.  When a configured
tool's display string starts with the tool name, it replaces the default
self entry and every creator with that name as a display-string start is
first removed. -/
def tools (c : ConfigParams) (s : EditState) : HRes :=
  let sbomasmDefault : Creator :=
    { creatorType := "Tool", creator := SBOMASM ++ "-" ++ SBOMASM_VERSION }
  let ci := s.bom.creationInfo.getD {}
  let creators0 := ci.creators.getD []
  let newTools := spdxConstructTools c
  let sbomasmTool := (newTools.find? (fun t => strStartsWith t.creator SBOMASM)).getD sbomasmDefault
  let explicitSbomasm := (newTools.find? (fun t => strStartsWith t.creator SBOMASM)).isSome
  let creators1 := if explicitSbomasm then removeCreator creators0 SBOMASM else creators0
  let creators2 :=
    if c.onMissing then
      let cs := newTools.foldl
        (fun cur t => if !(creatorExists cur t) then spdxUniqueCreators cur [t] else cur)
        creators1
      if !(creatorExists cs sbomasmTool) then spdxUniqueCreators cs [sbomasmTool] else cs
    else
      -- the append and overwrite branches of the source are identical
      let cs := spdxUniqueCreators creators1 newTools
      if !(creatorExists cs sbomasmTool) then spdxUniqueCreators cs [sbomasmTool] else cs
  .ok { s with bom := { s.bom with creationInfo := some { ci with creators := some creators2 } } }

/-- Handler for the `copyright` field (`spdxEditDoc.copyright`); component
scope only. -/
def copyright (c : ConfigParams) (s : EditState) : HRes :=
  if !c.shouldCopyRight then .err .noConfiguration s
  else if c.subject = .document then .err .notSupported s
  else
    match s.pkg with
    | none => .crash
    | some p =>
      if c.onMissing then
        if p.packageCopyrightText = "" then
          .ok { s with pkg := some { p with packageCopyrightText := c.copyright.getD "" } }
        else .ok s
      else .ok { s with pkg := some { p with packageCopyrightText := c.copyright.getD "" } }

/-- Handler for the `description` field (`spdxEditDoc.description`):
document scope writes the document comment, component scope the package
description. -/
def description (c : ConfigParams) (s : EditState) : HRes :=
  if !c.shouldDescription then .err .noConfiguration s
  else
    if c.onMissing then
      if c.subject = .document then
        if s.bom.documentComment = "" then
          .ok { s with bom := { s.bom with documentComment := c.description.getD "" } }
        else .ok s
      else
        match s.pkg with
        | none => .crash
        | some p =>
          if p.packageDescription = "" then
            .ok { s with pkg := some { p with packageDescription := c.description.getD "" } }
          else .ok s
    else
      if c.subject = .document then
        .ok { s with bom := { s.bom with documentComment := c.description.getD "" } }
      else
        match s.pkg with
        | none => .crash
        | some p =>
          .ok { s with pkg := some { p with packageDescription := c.description.getD "" } }

/-- Handler for the `repository` field (`spdxEditDoc.repository`);
component scope only, writes the download location. -/
def repository (c : ConfigParams) (s : EditState) : HRes :=
  if !c.shouldRepository then .err .noConfiguration s
  else if c.subject = .document then .err .notSupported s
  else
    match s.pkg with
    | none => .crash
    | some p =>
      if c.onMissing then
        if p.packageDownloadLocation = "" then
          .ok { s with pkg := some { p with packageDownloadLocation := c.repository.getD "" } }
        else .ok s
      else .ok { s with pkg := some { p with packageDownloadLocation := c.repository.getD "" } }

end spdxEditDoc

/-- Modelled from the spec: `spdx_strings_to_types` (defined outside
`src/`) — the closed, lower-case-keyed vocabulary of primary package
purposes; an unknown key yields the empty string (the Go map's zero
value). -/
def spdx_strings_to_types (s : String) : String :=
  if s = "application" then "APPLICATION"
  else if s = "framework" then "FRAMEWORK"
  else if s = "library" then "LIBRARY"
  else if s = "container" then "CONTAINER"
  else if s = "operating-system" then "OPERATING-SYSTEM"
  else if s = "device" then "DEVICE"
  else if s = "firmware" then "FIRMWARE"
  else if s = "source" then "SOURCE"
  else if s = "archive" then "ARCHIVE"
  else if s = "file" then "FILE"
  else if s = "install" then "INSTALL"
  else if s = "other" then "OTHER"
  else ""

namespace spdxEditDoc

/-- Handler for the `type` field (`spdxEditDoc.typ`); component scope
only; the value is looked up lower-cased in the closed vocabulary and an
unknown value is `invalid-input`. -/
def typ (c : ConfigParams) (s : EditState) : HRes :=
  if !c.shouldTyp then .err .noConfiguration s
  else if c.subject = .document then .err .notSupported s
  else
    let purpose := spdx_strings_to_types (strToLower (c.typ.getD ""))
    if purpose = "" then .err .invalidInput s
    else
      match s.pkg with
      | none => .crash
      | some p =>
        if c.onMissing then
          if p.primaryPackagePurpose = "" then
            .ok { s with pkg := some { p with primaryPackagePurpose := purpose } }
          else .ok s
        else .ok { s with pkg := some { p with primaryPackagePurpose := purpose } }

/-- Handler for the `timeStamp` field (`spdxEditDoc.timeStamp`): not
policy-gated, always writes the current clock value into the creation
metadata. -/
def timeStamp (c : ConfigParams) (s : EditState) : HRes :=
  let ci := s.bom.creationInfo.getD {}
  .ok { s with bom := { s.bom with creationInfo := some { ci with created := c.now } } }

/-- Handler for the `lifeCycles` field (`spdxEditDoc.lifeCycles`);
document scope only, joins the configured stage names into the creator
comment. -/
def lifeCycles (c : ConfigParams) (s : EditState) : HRes :=
  if !c.shouldLifeCycle then .err .noConfiguration s
  else if !(c.subject = .document) then .err .notSupported s
  else
    let lifecycles := "lifecycle: " ++ String.intercalate "," c.lifecycles
    let ci := s.bom.creationInfo.getD {}
    if c.onMissing then
      if ci.creatorComment = "" then
        .ok { s with bom := { s.bom with creationInfo := some { ci with creatorComment := lifecycles } } }
      else
        .ok { s with bom := { s.bom with creationInfo := some ci } }
    else
      .ok { s with bom := { s.bom with creationInfo := some { ci with creatorComment := lifecycles } } }

end spdxEditDoc

/-- The names of the fifteen field handlers, in the fixed table order of
`spdxEditDoc.update`. -/
inductive FieldName where
  | name | version | supplier | authors | purl | cpe | licenses | hashes
  | tools | copyright | lifeCycles | description | repository | typ | timeStamp
deriving DecidableEq, Repr

/-- Dispatch one field handler by name. -/
def updateField (f : FieldName) (c : ConfigParams) (s : EditState) : HRes :=
  match f with
  | .name => spdxEditDoc.name c s
  | .version => spdxEditDoc.version c s
  | .supplier => spdxEditDoc.supplier c s
  | .authors => spdxEditDoc.authors c s
  | .purl => spdxEditDoc.purl c s
  | .cpe => spdxEditDoc.cpe c s
  | .licenses => spdxEditDoc.licenses c s
  | .hashes => spdxEditDoc.hashes c s
  | .tools => spdxEditDoc.tools c s
  | .copyright => spdxEditDoc.copyright c s
  | .lifeCycles => spdxEditDoc.lifeCycles c s
  | .description => spdxEditDoc.description c s
  | .repository => spdxEditDoc.repository c s
  | .typ => spdxEditDoc.typ c s
  | .timeStamp => spdxEditDoc.timeStamp c s

/-- The fixed, ordered handler table of `spdxEditDoc.update`. -/
def updateFuncs : List FieldName :=
  [.name, .version, .supplier, .authors, .purl, .cpe, .licenses, .hashes,
   .tools, .copyright, .lifeCycles, .description, .repository, .typ, .timeStamp]

/-- Apply one field handler as the update loop does: non-fatal errors are
absorbed (the state carried on), a crash aborts. -/
def applyField (f : FieldName) (c : ConfigParams) (s : EditState) : Option EditState :=
  match updateField f c s with
  | .ok s' => some s'
  | .err _ s' => some s'
  | .crash => none

/-- The per-field update loop (`spdxEditDoc.update`): every handler in
table order; errors are logged and skipped, a runtime panic propagates. -/
def update (c : ConfigParams) (s : EditState) : Option EditState :=
  updateFuncs.foldl
    (fun acc f =>
      match acc with
      | none => none
      | some st => applyField f c st)
    (some s)

/-! ## Merge engine data model (`pkg/assemble/spdx/merge.go`)

SPDX element identifiers are modelled as an inductive type: `orig`
identifiers come from loaded input documents, while `rootPkg n` and
`newPkg n` are the identifiers the merge mints via `uuid.New()` (with the
"RootPackage-" and "Package-" text markers of the source).  Distinct
constructors never being equal models uuid freshness. -/

/-- An SPDX element identifier (`common.ElementID`). -/
inductive EId where
  | document
  | orig (s : String)
  | rootPkg (n : Nat)
  | newPkg (n : Nat)
deriving DecidableEq, Repr, Inhabited

/-- True for identifiers that can appear in a loaded input document (the
document self-reference or an input-supplied string identifier). -/
def EId.isInputId : EId → Bool
  | .document => true
  | .orig _ => true
  | _ => false

/-- True exactly for input-supplied string identifiers. -/
def EId.isOrigB : EId → Bool
  | .orig _ => true
  | _ => false

/-- A document-qualified element reference (`common.DocElementID`); the
merge compares and rewrites only the element part. -/
structure DocElementID where
  documentRefID : String := ""
  elementRefID : EId := .document
deriving DecidableEq, Repr, Inhabited

/-- The relationship kind vocabulary: DESCRIBES, CONTAINS, and the open
remainder. -/
inductive RelType where
  | describes
  | contains
  | otherRel (s : String)
deriving DecidableEq, Repr, Inhabited

/-- A directed relationship between two element references
(`spdx.Relationship`). -/
structure Rel where
  refA : DocElementID := {}
  refB : DocElementID := {}
  relationship : RelType := .otherRel ""
deriving DecidableEq, Repr, Inhabited

/-- The fields of `spdx.Package` that the merge engine reads or writes. -/
structure MPackage where
  packageSPDXIdentifier : EId := .orig ""
  packageName : String := ""
  packageVersion : String := ""
  packageDownloadLocation : String := ""
  packageSupplier : Option Supplier := none
  filesAnalyzed : Bool := false
  packageChecksums : Option (List Checksum) := none
  packageLicenseConcluded : String := ""
  packageLicenseDeclared : String := ""
  packageCopyrightText : String := ""
  packageDescription : String := ""
  primaryPackagePurpose : String := ""
  packageExternalReferences : Option (List ExtRef) := none
deriving DecidableEq, Repr, Inhabited

/-- The fields of `spdx.Document` the merge engine reads or writes.
Files, other-license records and external document references are opaque
pass-through data, modelled as strings; a `none` entry in `relationships`
models a nil relationship pointer. -/
structure MDoc where
  spdxVersion : String := ""
  dataLicense : String := ""
  spdxIdentifier : EId := .document
  documentName : String := ""
  documentNamespace : String := ""
  creationInfo : Option CreationInfo := none
  packages : List MPackage := []
  files : List String := []
  relationships : List (Option Rel) := []
  otherLicenses : List String := []
  externalDocumentReferences : List String := []
deriving DecidableEq, Repr, Inhabited

/-- An author or supplier entry of the merge configuration
(`Author` in the assemble settings). -/
structure MAuthor where
  name : String := ""
  email : String := ""
deriving DecidableEq, Repr, Inhabited

/-- A configured checksum of the merge configuration. -/
structure MChecksumCfg where
  algorithm : String := ""
  value : String := ""
deriving DecidableEq, Repr, Inhabited

/-- The configured license of the merge configuration. -/
structure MLicenseCfg where
  id : String := ""
  expression : String := ""
deriving DecidableEq, Repr, Inhabited

/-- The application-level metadata of the merge configuration
(`MergeSettings.App`). -/
structure AppSettings where
  name : String := ""
  version : String := ""
  authors : List MAuthor := []
  supplier : MAuthor := {}
  checksums : List MChecksumCfg := []
  license : MLicenseCfg := {}
  copyright : String := ""
  description : String := ""
  primaryPurpose : String := ""
  purl : String := ""
  cpe : String := ""
deriving DecidableEq, Repr, Inhabited

/-- The merge settings the hierarchical merge consumes (`MergeSettings`),
restricted to the application metadata (input paths, output destination
and logging context are external collaborators). -/
structure MergeSettings where
  app : AppSettings := {}
deriving DecidableEq, Repr, Inhabited

/-- Modelled from the spec: `spdx_hash_algos` (defined outside `src/`)
maps a configured algorithm name to the SPDX algorithm constant; an
unknown name yields the Go map's zero value. -/
def spdx_hash_algos (s : String) : String :=
  if ["SHA1", "SHA224", "SHA256", "SHA384", "SHA512", "MD2", "MD4", "MD5",
      "MD6", "SHA3-256", "SHA3-384", "SHA3-512", "BLAKE2b-256",
      "BLAKE2b-384", "BLAKE2b-512", "BLAKE3", "ADLER32"].contains s
  then s else ""

/-- `lo.Uniq`: deduplicate, keeping the first occurrence of each value in
order. -/
def uniqKeepFirst (l : List String) : List String :=
  l.foldl (fun acc v => if acc.contains v then acc else acc ++ [v]) []

/-- `strings.Trim(s, " ")`: strip leading and trailing space characters. -/
def trimSpaces (s : String) : String :=
  String.mk (((s.toList.dropWhile (fun ch => ch = ' ')).reverse.dropWhile
    (fun ch => ch = ' ')).reverse)

/-- A parsed semantic version.  Models `github.com/Masterminds/semver/v3`
`Version` for numeric-core versions (prerelease and build metadata do not
occur in license-list versions and are not modelled). -/
structure SemVer where
  major : Nat := 0
  minor : Nat := 0
  patch : Nat := 0
deriving DecidableEq, Repr, Inhabited

/-- Models `semver.NewVersion`: an optional leading "v", then one to
three dot-separated numeric components; missing components default to
zero; anything else fails. -/
def semverNewVersion (s : String) : Option SemVer :=
  let core := if strStartsWith s "v" then String.mk (s.data.drop 1) else s
  match splitOnDots core with
  | [a] =>
    match strToNat? a with
    | some ma => some { major := ma }
    | none => none
  | [a, b] =>
    match strToNat? a, strToNat? b with
    | some ma, some mi => some { major := ma, minor := mi }
    | _, _ => none
  | [a, b, p] =>
    match strToNat? a, strToNat? b, strToNat? p with
    | some ma, some mi, some pa => some { major := ma, minor := mi, patch := pa }
    | _, _, _ => none
  | _ => none

/-- Models `semver.Version.Compare`-induced ordering (no prerelease):
lexicographic on major, minor, patch. -/
def semverLeB (a b : SemVer) : Bool :=
  if a.major ≠ b.major then a.major < b.major
  else if a.minor ≠ b.minor then a.minor < b.minor
  else a.patch ≤ b.patch

/-- Models `semver.Version.String()`: the normalized
major.minor.patch rendering (a partial original such as "3.19" prints as
"3.19.0"). -/
def semverStringFull (v : SemVer) : String :=
  toString v.major ++ "." ++ toString v.minor ++ "." ++ toString v.patch

/-- Insert into a list sorted by `semverLeB`. -/
def insertSorted (v : SemVer) : List SemVer → List SemVer
  | [] => [v]
  | w :: ws => if semverLeB v w then v :: w :: ws else w :: insertSorted v ws

/-- Models `sort.Sort(semver.Collection(vs))`: sort ascending by the
semver ordering. -/
def sortSemver (l : List SemVer) : List SemVer :=
  l.foldr insertSorted []

/-- The per-input license-list-version extraction of `merge.initOutBom`:
the creation-info value when present and non-empty, otherwise the empty
string. -/
def licenseListVersionOfBom (bom : MDoc) : String :=
  match bom.creationInfo with
  | some ci => if ci.licenseListVersion ≠ "" then ci.licenseListVersion else ""
  | none => ""

/-- Parse every element, failing when any parse fails (the Go loop over
`lVersions` that panics on the first `semver.NewVersion` error). -/
def mapOptionAll (f : α → Option β) : List α → Option (List β)
  | [] => some []
  | a :: as =>
    match f a, mapOptionAll f as with
    | some b, some bs => some (b :: bs)
    | _, _ => none

/-- The license-list-version selection of `merge.initOutBom` (lines
91-115): deduplicate the extracted values; with more than one distinct
value parse all as semver (`none` models the fatal parse panic), sort and
take the first; with exactly one distinct non-blank value use it
verbatim; otherwise the "3.19" baseline. -/
def initOutBomLicenseListVersion (ins : List MDoc) : Option String :=
  let lVersions := uniqKeepFirst (ins.map licenseListVersionOfBom)
  if lVersions.length > 1 then
    match mapOptionAll semverNewVersion lVersions with
    | none => none
    | some vs =>
      match sortSemver vs with
      | v :: _ => some (semverStringFull v)
      | [] => some "3.19"
  else
    match lVersions with
    | [v0] => if trimSpaces v0 ≠ "" then some v0 else some "3.19"
    | _ => some "3.19"

/-- `merge.setupPrimaryComp`: synthesize the root package from the
application settings.  The root identifier is the first draw of the
root-package generator (`uuid.New()` at `newMerge`).  The source performs
a chain of conditional field assignments on a zero-valued package; each
field below is the collapsed final value of that chain (the three
sequential license assignments collapse to their last applicable case). -/
def setupPrimaryComp (ms : MergeSettings) : MPackage :=
  { packageSPDXIdentifier := .rootPkg 0,
    packageName := ms.app.name,
    packageVersion := ms.app.version,
    packageDownloadLocation := "NOASSERTION",
    packageSupplier :=
      if ms.app.supplier.name ≠ "" ∨ ms.app.supplier.email ≠ "" then
        some { supplierType := "Organization",
               supplier := ms.app.supplier.name ++ " (" ++ ms.app.supplier.email ++ ")" }
      else
        some { supplierType := "NOASSERTION", supplier := "NOASSERTION" },
    filesAnalyzed := false,
    packageChecksums :=
      if ms.app.checksums.length > 0 then
        some ((ms.app.checksums.filter (fun c => c.value.length ≠ 0)).map
          (fun c => { algorithm := spdx_hash_algos c.algorithm, value := c.value : Checksum }))
      else none,
    packageLicenseConcluded :=
      if ms.app.license.expression ≠ "" ∧ ms.app.license.id = "" then "NOASSERTION"
      else if ms.app.license.expression ≠ "" then ms.app.license.expression
      else if ms.app.license.id ≠ "" then ms.app.license.id
      else "",
    packageLicenseDeclared :=
      if ms.app.license.expression ≠ "" ∧ ms.app.license.id = "" then "NOASSERTION" else "",
    packageCopyrightText :=
      if ms.app.copyright ≠ "" then ms.app.copyright else "NOASSERTION",
    packageDescription := ms.app.description,
    primaryPackagePurpose := ms.app.primaryPurpose,
    packageExternalReferences :=
      some ((if ms.app.purl ≠ "" then
               [{ category := "PACKAGE-MANAGER", refType := "purl", locator := ms.app.purl : ExtRef }]
             else []) ++
            (if ms.app.cpe ≠ "" then
               [{ category := "SECURITY", refType := "cpe23Type", locator := ms.app.cpe : ExtRef }]
             else [])) }

/-- The DESCRIBES subset of a relationship list, skipping nil entries
(the `lo.Filter` before the package loop; membership is by kind, which the
rewrite never changes, so re-filtering the current list models the Go
pointer aliasing exactly). -/
def descRelsOf (rels : List (Option Rel)) : List Rel :=
  (rels.filterMap id).filter (fun r => r.relationship = .describes)

/-- `merge.isDescribedPackage`: the package is the RefB target of some
DESCRIBES relationship. -/
def isDescribedPackage (pkg : MPackage) (descRels : List Rel) : Bool :=
  descRels.any (fun rel => rel.refB.elementRefID = pkg.packageSPDXIdentifier)

/-- The endpoint rewrite of the package loop: both endpoints are checked
independently against the old identifier (only the element part is
compared, as in the source). -/
def rewriteRel (oldId newId : EId) (r : Rel) : Rel :=
  let ra := if r.refA.elementRefID = oldId then { r.refA with elementRefID := newId } else r.refA
  let rb := if r.refB.elementRefID = oldId then { r.refB with elementRefID := newId } else r.refB
  { r with refA := ra, refB := rb }

/-- The accumulating state of the hierarchical merge's package loop:
collected packages, collected root relationships, and the fresh-identifier
counter. -/
structure IngestState where
  pkgs : List MPackage := []
  deps : List Rel := []
  fresh : Nat := 0
deriving DecidableEq, Repr, Inhabited

/-- One iteration of the package loop of `merge.hierarchicalMerge`:
deep-copy the package (a value copy here); if it is described, mint a
fresh identifier, emit the root CONTAINS edge and rewrite this input's
relationships in place. -/
def processPkg (pc : MPackage) (st : IngestState × List (Option Rel)) (pkg : MPackage) :
    IngestState × List (Option Rel) :=
  let ist := st.1
  let rels := st.2
  let isDesc := isDescribedPackage pkg (descRelsOf rels)
  let cPkg := pkg
  if isDesc then
    let nid := EId.newPkg ist.fresh
    let cPkg := { cPkg with packageSPDXIdentifier := nid }
    let contRel : Rel :=
      { refA := { documentRefID := "", elementRefID := pc.packageSPDXIdentifier },
        refB := { documentRefID := "", elementRefID := nid },
        relationship := .contains }
    let rels' := rels.map (Option.map (rewriteRel pkg.packageSPDXIdentifier nid))
    (⟨ist.pkgs ++ [cPkg], ist.deps ++ [contRel], ist.fresh + 1⟩, rels')
  else
    (⟨ist.pkgs ++ [cPkg], ist.deps, ist.fresh⟩, rels)

/-- One iteration of the document loop of `merge.hierarchicalMerge`: run
the package loop over this input, with the rewrites landing in the input
document's own relationship list. -/
def processDoc (pc : MPackage) (acc : IngestState × List MDoc) (doc : MDoc) :
    IngestState × List MDoc :=
  let r := doc.packages.foldl (processPkg pc) (acc.1, doc.relationships)
  (r.1, acc.2 ++ [{ doc with relationships := r.2 }])

/-- The output relationship filter (`lo.Filter` over each input's
relationships after the document loop): drop nil entries and DESCRIBES
kinds. -/
def relKeep (r : Option Rel) : Bool :=
  match r with
  | none => false
  | some rel => !(rel.relationship = .describes)

/-- The result of the hierarchical merge: the output document and the
final state of the input documents (whose relationship lists the merge
rewrites in place). -/
structure MergeOut where
  out : MDoc
  ins : List MDoc
deriving DecidableEq, Repr, Inhabited

/-- `merge.hierarchicalMerge` (up to the serialization call): synthesize
the root, emit its DESCRIBES edge first, ingest every input in order, then
append every surviving input relationship, file and other-license record
in input order. -/
def hierarchicalMerge (ms : MergeSettings) (ins : List MDoc) : MergeOut :=
  let pc := setupPrimaryComp ms
  let deps0 : List Rel :=
    [{ refA := { documentRefID := "", elementRefID := .document },
       refB := { documentRefID := "", elementRefID := pc.packageSPDXIdentifier },
       relationship := .describes }]
  let st0 : IngestState := { pkgs := [pc], deps := deps0, fresh := 0 }
  let r := ins.foldl (processDoc pc) (st0, [])
  let stF := r.1
  let insF := r.2
  let tailRels := (insF.map (fun d => d.relationships.filter relKeep)).flatten
  let outRels : List (Option Rel) := stF.deps.map some ++ tailRels
  let files := (insF.map (fun d => d.files)).flatten
  let otherLics := (insF.map (fun d => d.otherLicenses)).flatten
  { out := { packages := stF.pkgs, files := files, relationships := outRels,
             otherLicenses := otherLics },
    ins := insF }

/-! ## Derived definitions used by the claim statements -/

/-- The creator list of an edit state, reading through the optional
creation metadata (the empty list for an absent list, as the tools handler
does). -/
def creatorsOfState (s : EditState) : List Creator :=
  (s.bom.creationInfo.getD {}).creators.getD []

/-- The display string of the running tool's default self entry. -/
def sbomasmSelfName : String := SBOMASM ++ "-" ++ SBOMASM_VERSION

/-- No configured tool entry's display string starts with the running
tool's name (so the tools handler's `explicitSbomasm` branch is not
taken). -/
def noExplicitSbomasm (c : ConfigParams) : Bool :=
  (spdxConstructTools c).all (fun t => !(strStartsWith t.creator SBOMASM))

/-- Modelled from the spec, as amended by the C3 counterexample: every
input contributes its license-list version or the empty placeholder;
values are deduplicated keeping first occurrences; with more than one
distinct value (the placeholder included) all are parsed as semantic
versions — any parse failure is fatal — and the least is emitted in
normalized major.minor.patch form; with exactly one distinct value it is
used verbatim when non-blank; otherwise the "3.19" baseline is used. -/
def licenseListVersionSpec (vers : List String) : Option String :=
  let distinct := uniqKeepFirst vers
  if distinct.length > 1 then
    match mapOptionAll semverNewVersion distinct with
    | none => none
    | some vs =>
      match vs with
      | v :: rest => some (semverStringFull (rest.foldl (fun a b => if semverLeB b a then b else a) v))
      | [] => none
  else
    match distinct with
    | [v0] => if trimSpaces v0 ≠ "" then some v0 else some "3.19"
    | _ => some "3.19"

/-- Apply an identifier substitution given as an association list: the
value of the first matching key, else the identifier itself. -/
def substApply (l : List (EId × EId)) (x : EId) : EId :=
  match l.find? (fun pr => pr.1 == x) with
  | some pr => pr.2
  | none => x

/-- Map a function over both endpoint element identifiers of a
relationship. -/
def mapEnds (f : EId → EId) (r : Rel) : Rel :=
  { r with refA := { r.refA with elementRefID := f r.refA.elementRefID },
           refB := { r.refB with elementRefID := f r.refB.elementRefID } }

/-- The substitution the package loop applies to one input document:
the i-th described package (described with respect to the document's
relationship list at loop entry) maps to the i-th fresh identifier. -/
def describedSubst (rels0 : List (Option Rel)) : Nat → List MPackage → List (EId × EId)
  | _, [] => []
  | n, p :: ps =>
    if isDescribedPackage p (descRelsOf rels0) then
      (p.packageSPDXIdentifier, EId.newPkg n) :: describedSubst rels0 (n + 1) ps
    else describedSubst rels0 n ps

/-- The clones the package loop appends for one input document: a value
copy per package, with a fresh identifier for each described one. -/
def ingestClones (rels0 : List (Option Rel)) : Nat → List MPackage → List MPackage
  | _, [] => []
  | n, p :: ps =>
    if isDescribedPackage p (descRelsOf rels0) then
      { p with packageSPDXIdentifier := EId.newPkg n } :: ingestClones rels0 (n + 1) ps
    else p :: ingestClones rels0 n ps

/-- The root CONTAINS edges for the described packages of one input, one
per assigned fresh identifier. -/
def containsRelsOf (pc : MPackage) (σ : List (EId × EId)) : List Rel :=
  σ.map (fun pr =>
    { refA := { documentRefID := "", elementRefID := pc.packageSPDXIdentifier },
      refB := { documentRefID := "", elementRefID := pr.2 },
      relationship := .contains })

/-- Every substitution value is a freshly minted package identifier. -/
def substFresh (σ : List (EId × EId)) : Prop :=
  ∀ pr ∈ σ, ∃ k, pr.2 = EId.newPkg k

/-- The keys of a substitution. -/
def substKeys (σ : List (EId × EId)) : List EId :=
  σ.map (fun pr => pr.1)

/-- Every element identifier appearing in an input document: package
identifiers, relationship endpoints, and the document's own identifier. -/
def docIds (d : MDoc) : List EId :=
  d.packages.map (fun p => p.packageSPDXIdentifier)
    ++ (d.relationships.filterMap id).foldr
        (fun r acc => r.refA.elementRefID :: r.refB.elementRefID :: acc) []
    ++ [d.spdxIdentifier]

/-- Every element identifier appearing in any input document. -/
def collectIds (ins : List MDoc) : List EId :=
  (ins.map docIds).flatten

/-- An input document is well formed for the merge when its package
identifiers are input-supplied strings and pairwise distinct. -/
def wfDoc (d : MDoc) : Prop :=
  (∀ p ∈ d.packages, (p.packageSPDXIdentifier).isOrigB = true) ∧
    (d.packages.map (fun p => p.packageSPDXIdentifier)).Nodup

instance (d : MDoc) : Decidable (wfDoc d) := by
  unfold wfDoc; infer_instance

/-- Drop the nil relationship entries of a document. -/
def dropNilRels (d : MDoc) : MDoc :=
  { d with relationships := d.relationships.filter (fun r => r.isSome) }

/-- The rewrite contract for one described package: every endpoint that
equalled the old identifier now carries the new one, nil entries stay
nil, and kinds are untouched (pointwise over the evolution of one input's
relationship list). -/
def relRewritten (oldId newId : EId) (ro rn : Option Rel) : Prop :=
  match ro, rn with
  | none, none => True
  | some o, some n =>
      (o.refA.elementRefID = oldId → n.refA.elementRefID = newId) ∧
      (o.refB.elementRefID = oldId → n.refB.elementRefID = newId) ∧
      n.relationship = o.relationship
  | _, _ => False

/-- The per-input rewrite property of the amended C6: for each input and
each of its described packages, a fresh identifier exists whose root
CONTAINS edge is in the output, this input's relationship list is
pointwise rewritten to it, and no relationship of this input still
references the original identifier. -/
def rewriteOk (ms : MergeSettings) (ins : List MDoc) : Prop :=
  let r := hierarchicalMerge ms ins
  List.Forall₂ (fun d d' =>
    ∀ p ∈ d.packages, isDescribedPackage p (descRelsOf d.relationships) = true →
      ∃ nid, (∃ k, nid = EId.newPkg k) ∧
        (some { refA := { documentRefID := "", elementRefID := (setupPrimaryComp ms).packageSPDXIdentifier },
                refB := { documentRefID := "", elementRefID := nid },
                relationship := RelType.contains } : Option Rel) ∈ r.out.relationships ∧
        List.Forall₂ (relRewritten p.packageSPDXIdentifier nid) d.relationships d'.relationships ∧
        ∀ ro ∈ d'.relationships, ∀ rel, ro = some rel →
          rel.refA.elementRefID ≠ p.packageSPDXIdentifier ∧
          rel.refB.elementRefID ≠ p.packageSPDXIdentifier)
    ins r.ins

/-! ## Concrete instances for the counterexamples and witnesses -/

/-- An existing cpe23Type reference (C1 failing input). -/
def c1oldRef : ExtRef := { category := "SECURITY", refType := "cpe23Type", locator := "cpe:2.3:a:old" }

/-- The C1 failing input: a resolved component that already carries a
cpe23Type reference. -/
def c1state : EditState := { bom := {}, pkg := some { packageExternalReferences := some [c1oldRef] } }

/-- The C1 failing configuration: overwrite policy with a configured cpe. -/
def c1cfg : ConfigParams := { subject := .primaryComponent, policy := .overwrite, cpe := some "cpe:2.3:a:new" }

/-- The C2 failing configuration: a component-scoped field configured
while the resolved subject is absent. -/
def c2cfg : ConfigParams := { subject := .primaryComponent, policy := .overwrite, name := some "widget" }

/-- The C2 failing input: subject resolution found no package. -/
def c2state : EditState := { bom := {}, pkg := none }

/-- An input document carrying only a license-list version (C3). -/
def bomWithLLV (v : String) : MDoc := { creationInfo := some { licenseListVersion := v } }

/-- The C5 failing input: a document already stamped by an older version
of the running tool. -/
def c5state : EditState :=
  { bom := { creationInfo := some { creators := some [{ creatorType := "Tool", creator := "sbomasm-0.1.0" }] } } }

/-- The C5 failing configuration: no tools configured, missing policy. -/
def c5cfg : ConfigParams := { subject := .document, policy := .missing }

/-- The C8 failing configuration: the missing policy with an explicitly
configured sbomasm-named tool next to another tool. -/
def c8cfg : ConfigParams :=
  { subject := .document, policy := .missing,
    tools := [{ name := "sbomasm", value := "9" }, { name := "other", value := "1" }] }

/-- The C8 failing input: an empty document. -/
def c8state : EditState := { bom := {}, pkg := none }

/-- The C8 witness configuration: missing policy, a configured name. -/
def c8wcfg : ConfigParams := { subject := .primaryComponent, policy := .missing, name := some "widget" }

/-- The C8 witness input: a resolved component with an empty name. -/
def c8wstate : EditState := { bom := {}, pkg := some {} }

/-- The C8 witness state after one application of the name update. -/
def c8wstate₁ : EditState := { bom := {}, pkg := some { packageName := "widget" } }

/-- A described package with input identifier X (merge counterexamples). -/
def pkgX : MPackage := { packageSPDXIdentifier := .orig "X" }

/-- The DESCRIBES relationship designating X. -/
def relDescX : Option Rel :=
  some { refA := { elementRefID := .document }, refB := { elementRefID := .orig "X" },
         relationship := .describes }

/-- A CONTAINS relationship out of X (rewritten by the merge). -/
def relXY : Option Rel :=
  some { refA := { elementRefID := .orig "X" }, refB := { elementRefID := .orig "Y" },
         relationship := .contains }

/-- The C4 failing input: one document whose relationships reference its
described package. -/
def c4doc : MDoc := { packages := [pkgX], relationships := [relDescX, relXY] }

/-- A second input whose relationship references X, the described
package of the first input (C6 counterexample). -/
def c6docB : MDoc :=
  { relationships := [some { refA := { elementRefID := .orig "Z" },
                             refB := { elementRefID := .orig "X" },
                             relationship := .contains }] }

/-! ## Helper lemmas about the merge folds -/

theorem mapEnds_id (r : Rel) : mapEnds id r = r := rfl

theorem map_optmap_mapEnds_id (l : List (Option Rel)) :
    l.map (Option.map (mapEnds id)) = l := by
  induction l with
  | nil => rfl
  | cons o t ih => cases o <;> simp [ih, mapEnds_id]

theorem mapEnds_comp (f g : EId → EId) (r : Rel) :
    mapEnds f (mapEnds g r) = mapEnds (fun x => f (g x)) r := rfl

theorem rewriteRel_eq_mapEnds (oldId nid : EId) (r : Rel) :
    rewriteRel oldId nid r = mapEnds (fun x => if x = oldId then nid else x) r := by
  unfold rewriteRel mapEnds
  dsimp only
  split_ifs <;> rfl

theorem processPkg_deps (pc : MPackage) (st : IngestState × List (Option Rel)) (p : MPackage) :
    ∃ l, (processPkg pc st p).1.deps = st.1.deps ++ l := by
  unfold processPkg
  dsimp only
  split
  · exact ⟨_, rfl⟩
  · exact ⟨[], by simp⟩

theorem pkgsFold_deps (pc : MPackage) :
    ∀ (ps : List MPackage) (st : IngestState × List (Option Rel)),
      ∃ l, (ps.foldl (processPkg pc) st).1.deps = st.1.deps ++ l := by
  intro ps
  induction ps with
  | nil => intro st; exact ⟨[], by simp⟩
  | cons p ps ih =>
    intro st
    obtain ⟨l₁, h₁⟩ := processPkg_deps pc st p
    obtain ⟨l₂, h₂⟩ := ih (processPkg pc st p)
    refine ⟨l₁ ++ l₂, ?_⟩
    rw [List.foldl_cons, h₂, h₁, List.append_assoc]

theorem docsFold_deps (pc : MPackage) :
    ∀ (ins : List MDoc) (acc : IngestState × List MDoc),
      ∃ l, (ins.foldl (processDoc pc) acc).1.deps = acc.1.deps ++ l := by
  intro ins
  induction ins with
  | nil => intro acc; exact ⟨[], by simp⟩
  | cons d ins ih =>
    intro acc
    obtain ⟨l₁, h₁⟩ := pkgsFold_deps pc d.packages (acc.1, d.relationships)
    obtain ⟨l₂, h₂⟩ := ih (processDoc pc acc d)
    refine ⟨l₁ ++ l₂, ?_⟩
    rw [List.foldl_cons, h₂]
    show (processDoc pc acc d).1.deps ++ l₂ = _
    unfold processDoc
    dsimp only
    rw [h₁, List.append_assoc]

theorem processPkg_rels_shape (pc : MPackage) (st : IngestState × List (Option Rel))
    (p : MPackage) :
    ∃ f, (processPkg pc st p).2 = st.2.map (Option.map (mapEnds f)) := by
  unfold processPkg
  dsimp only
  split
  · refine ⟨fun x => if x = p.packageSPDXIdentifier then EId.newPkg st.1.fresh else x, ?_⟩
    show List.map (Option.map (rewriteRel p.packageSPDXIdentifier (EId.newPkg st.1.fresh))) st.2 = _
    congr 1
    funext o
    cases o <;> simp [rewriteRel_eq_mapEnds]
  · exact ⟨id, (map_optmap_mapEnds_id st.2).symm⟩

theorem pkgsFold_rels_shape (pc : MPackage) :
    ∀ (ps : List MPackage) (st : IngestState × List (Option Rel)),
      ∃ f, (ps.foldl (processPkg pc) st).2 = st.2.map (Option.map (mapEnds f)) := by
  intro ps
  induction ps with
  | nil => intro st; exact ⟨id, (map_optmap_mapEnds_id st.2).symm⟩
  | cons p ps ih =>
    intro st
    obtain ⟨g, hg⟩ := processPkg_rels_shape pc st p
    obtain ⟨f, hf⟩ := ih (processPkg pc st p)
    refine ⟨fun x => f (g x), ?_⟩
    rw [List.foldl_cons, hf, hg, List.map_map]
    congr 1
    funext o
    cases o <;> simp [mapEnds_comp]

theorem processDoc_snd (pc : MPackage) (acc : IngestState × List MDoc) (d : MDoc) :
    ∃ f, (processDoc pc acc d).2 =
      acc.2 ++ [{ d with relationships := d.relationships.map (Option.map (mapEnds f)) }] := by
  obtain ⟨f, hf⟩ := pkgsFold_rels_shape pc d.packages (acc.1, d.relationships)
  refine ⟨f, ?_⟩
  unfold processDoc
  dsimp only
  rw [hf]

theorem docsFold_snd_shape (pc : MPackage) :
    ∀ (ins : List MDoc) (acc : IngestState × List MDoc),
      ∃ processed, (ins.foldl (processDoc pc) acc).2 = acc.2 ++ processed ∧
        List.Forall₂ (fun d d' => ∃ f,
            d' = { d with relationships := d.relationships.map (Option.map (mapEnds f)) })
          ins processed := by
  intro ins
  induction ins with
  | nil => intro acc; exact ⟨[], by simp, List.Forall₂.nil⟩
  | cons d ins ih =>
    intro acc
    obtain ⟨f, h₁⟩ := processDoc_snd pc acc d
    obtain ⟨processed, h₂, hfa⟩ := ih (processDoc pc acc d)
    refine ⟨{ d with relationships := d.relationships.map (Option.map (mapEnds f)) } :: processed,
      ?_, List.Forall₂.cons ⟨f, rfl⟩ hfa⟩
    rw [List.foldl_cons, h₂, h₁, List.append_assoc]
    rfl

/-! ### Nil-relationship skipping lemmas (C9) -/

theorem filterMap_id_filter_isSome (l : List (Option Rel)) :
    (l.filter (fun r => r.isSome)).filterMap id = l.filterMap id := by
  induction l with
  | nil => rfl
  | cons o t ih => cases o <;> simp [ih]

theorem descRelsOf_filter_isSome (l : List (Option Rel)) :
    descRelsOf (l.filter (fun r => r.isSome)) = descRelsOf l := by
  unfold descRelsOf
  rw [filterMap_id_filter_isSome]

theorem map_optmap_filter_isSome (g : Rel → Rel) (l : List (Option Rel)) :
    (l.filter (fun r => r.isSome)).map (Option.map g) =
      (l.map (Option.map g)).filter (fun r => r.isSome) := by
  induction l with
  | nil => rfl
  | cons o t ih => cases o <;> simp [ih]

theorem relKeep_filter_isSome (l : List (Option Rel)) :
    (l.filter (fun r => r.isSome)).filter relKeep = l.filter relKeep := by
  induction l with
  | nil => rfl
  | cons o t ih =>
    cases o with
    | none => simp [relKeep, ih]
    | some v => simp only [List.filter_cons, Option.isSome_some, if_true, ih]

theorem processPkg_dropNil (pc : MPackage) (ist : IngestState) (l : List (Option Rel))
    (p : MPackage) :
    processPkg pc (ist, l.filter (fun r => r.isSome)) p =
      ((processPkg pc (ist, l) p).1,
       (processPkg pc (ist, l) p).2.filter (fun r => r.isSome)) := by
  unfold processPkg
  dsimp only
  rw [descRelsOf_filter_isSome]
  split
  · rw [map_optmap_filter_isSome]
  · rfl

theorem pkgsFold_dropNil (pc : MPackage) :
    ∀ (ps : List MPackage) (ist : IngestState) (l : List (Option Rel)),
      ps.foldl (processPkg pc) (ist, l.filter (fun r => r.isSome)) =
        ((ps.foldl (processPkg pc) (ist, l)).1,
         (ps.foldl (processPkg pc) (ist, l)).2.filter (fun r => r.isSome)) := by
  intro ps
  induction ps with
  | nil => intro ist l; rfl
  | cons p ps ih =>
    intro ist l
    rw [List.foldl_cons, List.foldl_cons, processPkg_dropNil pc ist l p]
    exact ih (processPkg pc (ist, l) p).1 (processPkg pc (ist, l) p).2

theorem processDoc_dropNil (pc : MPackage) (ist : IngestState) (accO accF : List MDoc)
    (d : MDoc) :
    ∃ d₁, processDoc pc (ist, accO) d = ((processDoc pc (ist, accO) d).1, accO ++ [d₁]) ∧
      processDoc pc (ist, accF) (dropNilRels d) =
        ((processDoc pc (ist, accO) d).1, accF ++ [dropNilRels d₁]) := by
  refine ⟨{ d with relationships := (d.packages.foldl (processPkg pc) (ist, d.relationships)).2 },
    rfl, ?_⟩
  unfold processDoc
  dsimp only
  rw [show (dropNilRels d).relationships = d.relationships.filter (fun r => r.isSome) from rfl,
    show (dropNilRels d).packages = d.packages from rfl,
    pkgsFold_dropNil pc d.packages ist d.relationships]
  rfl

theorem docsFold_dropNil (pc : MPackage) :
    ∀ (ins : List MDoc) (ist : IngestState) (accO accF : List MDoc),
      ((ins.map dropNilRels).foldl (processDoc pc) (ist, accF)).1 =
          (ins.foldl (processDoc pc) (ist, accO)).1 ∧
        ∃ pO, (ins.foldl (processDoc pc) (ist, accO)).2 = accO ++ pO ∧
          ((ins.map dropNilRels).foldl (processDoc pc) (ist, accF)).2 =
            accF ++ pO.map dropNilRels := by
  intro ins
  induction ins with
  | nil => intro ist accO accF; exact ⟨rfl, [], by simp, by simp⟩
  | cons d ins ih =>
    intro ist accO accF
    obtain ⟨d₁, hO, hF⟩ := processDoc_dropNil pc ist accO accF d
    obtain ⟨h1, pO, h2, h3⟩ := ih (processDoc pc (ist, accO) d).1 (accO ++ [d₁]) (accF ++ [dropNilRels d₁])
    have eO : ins.foldl (processDoc pc) (processDoc pc (ist, accO) d) =
        ins.foldl (processDoc pc) ((processDoc pc (ist, accO) d).1, accO ++ [d₁]) := by
      rw [← hO]
    have eF : (ins.map dropNilRels).foldl (processDoc pc) (processDoc pc (ist, accF) (dropNilRels d)) =
        (ins.map dropNilRels).foldl (processDoc pc)
          ((processDoc pc (ist, accO) d).1, accF ++ [dropNilRels d₁]) := by
      rw [hF]
    refine ⟨?_, d₁ :: pO, ?_, ?_⟩
    · rw [List.map_cons, List.foldl_cons, eF, List.foldl_cons, eO, h1]
    · rw [List.foldl_cons, eO, h2, List.append_assoc]
      rfl
    · rw [List.map_cons, List.foldl_cons, eF, h3, List.append_assoc]
      rfl

/-! ### Semantic-version ordering lemmas (C3) -/

theorem semverLeB_iff (a b : SemVer) :
    semverLeB a b = true ↔
      (a.major < b.major ∨ (a.major = b.major ∧
        (a.minor < b.minor ∨ (a.minor = b.minor ∧ a.patch ≤ b.patch)))) := by
  unfold semverLeB
  split_ifs <;> (simp_all; try omega)

theorem semverLeB_refl (a : SemVer) : semverLeB a a = true := by
  rw [semverLeB_iff]
  omega

theorem semverLeB_total (a b : SemVer) :
    semverLeB a b = true ∨ semverLeB b a = true := by
  rw [semverLeB_iff, semverLeB_iff]
  omega

theorem semverLeB_trans {a b c : SemVer} (h1 : semverLeB a b = true)
    (h2 : semverLeB b c = true) : semverLeB a c = true := by
  rw [semverLeB_iff] at h1 h2 ⊢
  omega

theorem semverLeB_antisymm {a b : SemVer} (h1 : semverLeB a b = true)
    (h2 : semverLeB b a = true) : a = b := by
  rw [semverLeB_iff] at h1 h2
  cases a
  cases b
  simp_all
  omega

theorem sortSemver_head_min :
    ∀ l : List SemVer, l ≠ [] → ∃ m rest, sortSemver l = m :: rest ∧ m ∈ l ∧
      ∀ w ∈ l, semverLeB m w = true := by
  intro l
  induction l with
  | nil => intro h; exact absurd rfl h
  | cons v t ih =>
    intro _
    cases t with
    | nil =>
      refine ⟨v, [], rfl, List.mem_singleton.2 rfl, ?_⟩
      intro w hw
      rw [List.mem_singleton.1 hw]
      exact semverLeB_refl v
    | cons w t' =>
      obtain ⟨m, rest, hsort, hmem, hmin⟩ := ih (by simp)
      rw [show sortSemver (v :: w :: t') = insertSorted v (sortSemver (w :: t')) from rfl, hsort]
      unfold insertSorted
      split
      case isTrue hvm =>
        refine ⟨v, m :: rest, rfl, List.mem_cons_self v _, ?_⟩
        intro u hu
        rcases List.mem_cons.1 hu with h | h
        · rw [h]; exact semverLeB_refl v
        · exact semverLeB_trans hvm (hmin u h)
      case isFalse hvm =>
        have hmv : semverLeB m v = true := by
          rcases semverLeB_total v m with h | h
          · exact absurd h hvm
          · exact h
        refine ⟨m, insertSorted v rest, rfl, List.mem_cons_of_mem v hmem, ?_⟩
        intro u hu
        rcases List.mem_cons.1 hu with h | h
        · rw [h]; exact hmv
        · exact hmin u h

theorem foldlMin_spec :
    ∀ (rest : List SemVer) (a : SemVer),
      (rest.foldl (fun x y => if semverLeB y x = true then y else x) a) ∈ a :: rest ∧
        ∀ w ∈ a :: rest,
          semverLeB (rest.foldl (fun x y => if semverLeB y x = true then y else x) a) w = true := by
  intro rest
  induction rest with
  | nil =>
    intro a
    refine ⟨List.mem_singleton.2 rfl, ?_⟩
    intro w hw
    rw [List.mem_singleton.1 hw]
    exact semverLeB_refl a
  | cons b rest ih =>
    intro a
    obtain ⟨hmem, hmin⟩ := ih (if semverLeB b a = true then b else a)
    constructor
    · rw [List.foldl_cons]
      rcases List.mem_cons.1 hmem with h | h
      · rw [h]
        split
        · exact List.mem_cons_of_mem a (List.mem_cons_self b rest)
        · exact List.mem_cons_self a (b :: rest)
      · exact List.mem_cons_of_mem a (List.mem_cons_of_mem b h)
    · intro w hw
      rw [List.foldl_cons]
      have hma : semverLeB (rest.foldl (fun x y => if semverLeB y x = true then y else x)
          (if semverLeB b a = true then b else a)) (if semverLeB b a = true then b else a) = true :=
        hmin _ (List.mem_cons_self _ rest)
      rcases List.mem_cons.1 hw with h | h
      · rw [h]
        by_cases hba : semverLeB b a = true
        · rw [if_pos hba] at hma
          exact semverLeB_trans (by rw [if_pos hba]; exact hma) hba
        · rw [if_neg hba] at hma
          rw [if_neg hba]
          exact hma
      · rcases List.mem_cons.1 h with h' | h'
        · rw [h']
          by_cases hba : semverLeB b a = true
          · rw [if_pos hba] at hma ⊢
            exact hma
          · have hab : semverLeB a b = true := by
              rcases semverLeB_total b a with hx | hx
              · exact absurd hx hba
              · exact hx
            rw [if_neg hba] at hma ⊢
            exact semverLeB_trans hma hab
        · exact hmin w (List.mem_cons_of_mem _ h')

theorem mapOptionAll_length {f : α → Option β} :
    ∀ {l : List α} {bs : List β}, mapOptionAll f l = some bs → bs.length = l.length := by
  intro l
  induction l with
  | nil => intro bs h; cases h; rfl
  | cons a t ih =>
    intro bs h
    unfold mapOptionAll at h
    cases hfa : f a with
    | none => rw [hfa] at h; cases h
    | some b =>
      rw [hfa] at h
      cases hrest : mapOptionAll f t with
      | none => rw [hrest] at h; cases h
      | some bt =>
        rw [hrest] at h
        cases h
        simp [ih hrest]

/-! ### Tool-stamping lemmas (C5, C8) -/

theorem spdxUniqueCreators_fold_append (setList : List String) :
    ∀ (news acc : List Creator),
      ∃ add, news.foldl
          (fun acc c => if setList.contains c.creator then acc else acc ++ [c]) acc =
        acc ++ add := by
  intro news
  induction news with
  | nil => intro acc; exact ⟨[], by simp⟩
  | cons c news ih =>
    intro acc
    rw [List.foldl_cons]
    by_cases hc : setList.contains c.creator = true
    · rw [if_pos hc]
      exact ih acc
    · rw [if_neg hc]
      obtain ⟨add, h⟩ := ih (acc ++ [c])
      exact ⟨c :: add, by rw [h, List.append_assoc]; rfl⟩

theorem spdxUniqueCreators_append (ex news : List Creator) :
    ∃ add, spdxUniqueCreators ex news = ex ++ add := by
  unfold spdxUniqueCreators
  exact spdxUniqueCreators_fold_append (ex.map fun c => c.creator) news ex

theorem selfStamp_step (cs : List Creator) (t : Creator) :
    ∃ add, (if !(creatorExists cs t) then spdxUniqueCreators cs [t] else cs) = cs ++ add ∧
      (cs ++ add).any (fun cr => cr.creator = t.creator) = true := by
  by_cases he : creatorExists cs t = true
  · refine ⟨[], by simp [he], ?_⟩
    obtain ⟨x, hx, hxp⟩ := List.any_eq_true.1 he
    simp only [Bool.and_eq_true, decide_eq_true_eq] at hxp
    refine List.any_eq_true.2 ⟨x, by simp [hx], ?_⟩
    simp [hxp.1]
  · have hsel : spdxUniqueCreators cs [t] =
        if (cs.map fun c => c.creator).contains t.creator then cs else cs ++ [t] := rfl
    by_cases hc : (cs.map fun c => c.creator).contains t.creator = true
    · refine ⟨[], ?_, ?_⟩
      · rw [if_pos (by simp [he]), hsel, if_pos hc, List.append_nil]
      · obtain ⟨x, hx, hxc⟩ := List.mem_map.1 (List.mem_of_elem_eq_true hc)
        refine List.any_eq_true.2 ⟨x, by simp [hx], by simp [hxc]⟩
    · refine ⟨[t], ?_, ?_⟩
      · rw [if_pos (by simp [he]), hsel, if_neg hc]
      · exact List.any_eq_true.2 ⟨t, by simp, by simp⟩

theorem toolsMissingFold_append :
    ∀ (ts cur : List Creator),
      ∃ add, ts.foldl
          (fun cur t => if !(creatorExists cur t) then spdxUniqueCreators cur [t] else cur)
          cur = cur ++ add := by
  intro ts
  induction ts with
  | nil => intro cur; exact ⟨[], by simp⟩
  | cons t ts ih =>
    intro cur
    rw [List.foldl_cons]
    by_cases he : creatorExists cur t = true
    · rw [if_neg (by simp [he])]
      exact ih cur
    · rw [if_pos (by simp [he])]
      obtain ⟨a1, h1⟩ := spdxUniqueCreators_append cur [t]
      obtain ⟨a2, h2⟩ := ih (spdxUniqueCreators cur [t])
      exact ⟨a1 ++ a2, by rw [h2, h1, List.append_assoc]⟩

/-! ### Missing-policy idempotence lemmas, one per handler (C8) -/

theorem name_missing_idem (c : ConfigParams) (s s₁ : EditState) (hm : c.onMissing = true)
    (h : applyField .name c s = some s₁) : applyField .name c s₁ = some s₁ := by
  unfold applyField updateField spdxEditDoc.name at h ⊢
  rw [hm] at h ⊢
  by_cases hg : (!c.shouldName) = true
  · rw [if_pos hg] at h ⊢
  · rw [if_neg hg] at h ⊢
    by_cases hd : c.subject = Subject.document
    · rw [if_pos hd] at h ⊢
    · rw [if_neg hd] at h ⊢
      cases hp : s.pkg with
      | none => rw [hp] at h; cases h
      | some p =>
        rw [hp] at h
        simp only [if_true] at h ⊢
        by_cases hn : p.packageName = ""
        · rw [if_pos hn] at h
          simp only [Option.some.injEq] at h
          subst h
          by_cases hv : c.name.getD "" = ""
          · simp only [if_pos hv]
          · simp only [if_neg hv]
        · rw [if_neg hn] at h
          simp only [Option.some.injEq] at h
          subst h
          rw [hp]
          simp only [if_neg hn]

theorem version_missing_idem (c : ConfigParams) (s s₁ : EditState) (hm : c.onMissing = true)
    (h : applyField .version c s = some s₁) : applyField .version c s₁ = some s₁ := by
  unfold applyField updateField spdxEditDoc.version at h ⊢
  rw [hm] at h ⊢
  by_cases hg : (!c.shouldVersion) = true
  · rw [if_pos hg] at h ⊢
  · rw [if_neg hg] at h ⊢
    by_cases hd : c.subject = Subject.document
    · rw [if_pos hd] at h ⊢
    · rw [if_neg hd] at h ⊢
      cases hp : s.pkg with
      | none => rw [hp] at h; cases h
      | some p =>
        rw [hp] at h
        simp only [if_true] at h ⊢
        by_cases hn : p.packageVersion = ""
        · rw [if_pos hn] at h
          simp only [Option.some.injEq] at h
          subst h
          by_cases hv : c.version.getD "" = ""
          · simp only [if_pos hv]
          · simp only [if_neg hv]
        · rw [if_neg hn] at h
          simp only [Option.some.injEq] at h
          subst h
          rw [hp]
          simp only [if_neg hn]

theorem copyright_missing_idem (c : ConfigParams) (s s₁ : EditState) (hm : c.onMissing = true)
    (h : applyField .copyright c s = some s₁) : applyField .copyright c s₁ = some s₁ := by
  unfold applyField updateField spdxEditDoc.copyright at h ⊢
  rw [hm] at h ⊢
  by_cases hg : (!c.shouldCopyRight) = true
  · rw [if_pos hg] at h ⊢
  · rw [if_neg hg] at h ⊢
    by_cases hd : c.subject = Subject.document
    · rw [if_pos hd] at h ⊢
    · rw [if_neg hd] at h ⊢
      cases hp : s.pkg with
      | none => rw [hp] at h; cases h
      | some p =>
        rw [hp] at h
        simp only [if_true] at h ⊢
        by_cases hn : p.packageCopyrightText = ""
        · rw [if_pos hn] at h
          simp only [Option.some.injEq] at h
          subst h
          by_cases hv : c.copyright.getD "" = ""
          · simp only [if_pos hv]
          · simp only [if_neg hv]
        · rw [if_neg hn] at h
          simp only [Option.some.injEq] at h
          subst h
          rw [hp]
          simp only [if_neg hn]

theorem repository_missing_idem (c : ConfigParams) (s s₁ : EditState) (hm : c.onMissing = true)
    (h : applyField .repository c s = some s₁) : applyField .repository c s₁ = some s₁ := by
  unfold applyField updateField spdxEditDoc.repository at h ⊢
  rw [hm] at h ⊢
  by_cases hg : (!c.shouldRepository) = true
  · rw [if_pos hg] at h ⊢
  · rw [if_neg hg] at h ⊢
    by_cases hd : c.subject = Subject.document
    · rw [if_pos hd] at h ⊢
    · rw [if_neg hd] at h ⊢
      cases hp : s.pkg with
      | none => rw [hp] at h; cases h
      | some p =>
        rw [hp] at h
        simp only [if_true] at h ⊢
        by_cases hn : p.packageDownloadLocation = ""
        · rw [if_pos hn] at h
          simp only [Option.some.injEq] at h
          subst h
          by_cases hv : c.repository.getD "" = ""
          · simp only [if_pos hv]
          · simp only [if_neg hv]
        · rw [if_neg hn] at h
          simp only [Option.some.injEq] at h
          subst h
          rw [hp]
          simp only [if_neg hn]

theorem supplier_missing_idem (c : ConfigParams) (s s₁ : EditState) (hm : c.onMissing = true)
    (h : applyField .supplier c s = some s₁) : applyField .supplier c s₁ = some s₁ := by
  unfold applyField updateField spdxEditDoc.supplier at h ⊢
  dsimp only at h ⊢
  rw [hm] at h ⊢
  by_cases hg : (!c.shouldSupplier) = true
  · rw [if_pos hg] at h ⊢
  · rw [if_neg hg] at h ⊢
    by_cases hd : c.subject = Subject.document
    · rw [if_pos hd] at h ⊢
    · rw [if_neg hd] at h ⊢
      cases hp : s.pkg with
      | none => rw [hp] at h; cases h
      | some p =>
        rw [hp] at h
        simp only [if_true] at h ⊢
        by_cases hn : p.packageSupplier = none
        · rw [if_pos hn] at h
          simp only [Option.some.injEq] at h
          subst h
          simp
        · rw [if_neg hn] at h
          simp only [Option.some.injEq] at h
          subst h
          rw [hp]
          simp only [if_neg hn]

theorem hashes_missing_idem (c : ConfigParams) (s s₁ : EditState) (hm : c.onMissing = true)
    (h : applyField .hashes c s = some s₁) : applyField .hashes c s₁ = some s₁ := by
  unfold applyField updateField spdxEditDoc.hashes at h ⊢
  dsimp only at h ⊢
  rw [hm] at h ⊢
  by_cases hg : (!c.shouldHashes) = true
  · rw [if_pos hg] at h ⊢
  · rw [if_neg hg] at h ⊢
    by_cases hd : c.subject = Subject.document
    · rw [if_pos hd] at h ⊢
    · rw [if_neg hd] at h ⊢
      cases hp : s.pkg with
      | none => rw [hp] at h; cases h
      | some p =>
        rw [hp] at h
        simp only [if_true] at h ⊢
        by_cases hn : p.packageChecksums = none
        · rw [if_pos hn] at h
          simp only [Option.some.injEq] at h
          subst h
          simp
        · rw [if_neg hn] at h
          simp only [Option.some.injEq] at h
          subst h
          rw [hp]
          simp only [if_neg hn]

theorem typ_missing_idem (c : ConfigParams) (s s₁ : EditState) (hm : c.onMissing = true)
    (h : applyField .typ c s = some s₁) : applyField .typ c s₁ = some s₁ := by
  unfold applyField updateField spdxEditDoc.typ at h ⊢
  dsimp only at h ⊢
  rw [hm] at h ⊢
  by_cases hg : (!c.shouldTyp) = true
  · rw [if_pos hg] at h ⊢
  · rw [if_neg hg] at h ⊢
    by_cases hd : c.subject = Subject.document
    · rw [if_pos hd] at h ⊢
    · rw [if_neg hd] at h ⊢
      by_cases hq : spdx_strings_to_types (strToLower (c.typ.getD "")) = ""
      · rw [if_pos hq] at h ⊢
      · rw [if_neg hq] at h ⊢
        cases hp : s.pkg with
        | none => rw [hp] at h; cases h
        | some p =>
          rw [hp] at h
          simp only [if_true] at h ⊢
          by_cases hn : p.primaryPackagePurpose = ""
          · rw [if_pos hn] at h
            simp only [Option.some.injEq] at h
            subst h
            simp only [if_neg hq]
          · rw [if_neg hn] at h
            simp only [Option.some.injEq] at h
            subst h
            rw [hp]
            simp only [if_neg hn]

theorem timeStamp_missing_idem (c : ConfigParams) (s s₁ : EditState)
    (h : applyField .timeStamp c s = some s₁) : applyField .timeStamp c s₁ = some s₁ := by
  unfold applyField updateField spdxEditDoc.timeStamp at h ⊢
  dsimp only at h ⊢
  simp only [Option.some.injEq] at h
  subst h
  rfl

theorem description_missing_idem (c : ConfigParams) (s s₁ : EditState) (hm : c.onMissing = true)
    (h : applyField .description c s = some s₁) : applyField .description c s₁ = some s₁ := by
  unfold applyField updateField spdxEditDoc.description at h ⊢
  rw [hm] at h ⊢
  by_cases hg : (!c.shouldDescription) = true
  · rw [if_pos hg] at h ⊢
  · rw [if_neg hg] at h ⊢
    simp only [if_true] at h ⊢
    by_cases hd : c.subject = Subject.document
    · rw [if_pos hd] at h ⊢
      by_cases hn : s.bom.documentComment = ""
      · rw [if_pos hn] at h
        simp only [Option.some.injEq] at h
        subst h
        by_cases hv : c.description.getD "" = ""
        · simp only [if_pos hv]
        · simp only [if_neg hv]
      · rw [if_neg hn] at h
        simp only [Option.some.injEq] at h
        subst h
        rw [if_neg hn]
    · rw [if_neg hd] at h ⊢
      cases hp : s.pkg with
      | none => rw [hp] at h; cases h
      | some p =>
        rw [hp] at h
        dsimp only at h
        by_cases hn : p.packageDescription = ""
        · rw [if_pos hn] at h
          simp only [Option.some.injEq] at h
          subst h
          by_cases hv : c.description.getD "" = ""
          · simp only [if_pos hv]
          · simp only [if_neg hv]
        · rw [if_neg hn] at h
          simp only [Option.some.injEq] at h
          subst h
          rw [hp]
          simp only [if_neg hn]

theorem licenses_missing_idem (c : ConfigParams) (s s₁ : EditState) (hm : c.onMissing = true)
    (h : applyField .licenses c s = some s₁) : applyField .licenses c s₁ = some s₁ := by
  unfold applyField updateField spdxEditDoc.licenses at h ⊢
  dsimp only at h ⊢
  rw [hm] at h ⊢
  by_cases hg : (!c.shouldLicenses) = true
  · rw [if_pos hg] at h ⊢
  · rw [if_neg hg] at h ⊢
    simp only [if_true] at h ⊢
    by_cases hd : c.subject = Subject.document
    · rw [if_pos hd] at h ⊢
      by_cases hn : s.bom.dataLicense = ""
      · rw [if_pos hn] at h
        simp only [Option.some.injEq] at h
        subst h
        by_cases hv : spdxEditDoc.spdxConstructLicenses c = ""
        · simp only [if_pos hv]
        · simp only [if_neg hv]
      · rw [if_neg hn] at h
        simp only [Option.some.injEq] at h
        subst h
        rw [if_neg hn]
    · rw [if_neg hd] at h ⊢
      cases hp : s.pkg with
      | none => rw [hp] at h; cases h
      | some p =>
        rw [hp] at h
        dsimp only at h
        by_cases hn : p.packageLicenseConcluded = ""
        · rw [if_pos hn] at h
          simp only [Option.some.injEq] at h
          subst h
          by_cases hv : spdxEditDoc.spdxConstructLicenses c = ""
          · simp only [if_pos hv]
          · simp only [if_neg hv]
        · rw [if_neg hn] at h
          simp only [Option.some.injEq] at h
          subst h
          rw [hp]
          simp only [if_neg hn]

theorem authors_missing_idem (c : ConfigParams) (s s₁ : EditState) (hm : c.onMissing = true)
    (h : applyField .authors c s = some s₁) : applyField .authors c s₁ = some s₁ := by
  unfold applyField updateField spdxEditDoc.authors at h ⊢
  dsimp only at h ⊢
  rw [hm] at h ⊢
  by_cases hg : (!c.shouldAuthors) = true
  · rw [if_pos hg] at h ⊢
  · rw [if_neg hg] at h ⊢
    by_cases hd : (!(c.subject = Subject.document)) = true
    · rw [if_pos hd] at h ⊢
    · rw [if_neg hd] at h ⊢
      simp only [if_true] at h ⊢
      cases hci : s.bom.creationInfo with
      | none =>
        rw [hci] at h
        dsimp only at h
        simp only [Option.some.injEq] at h
        subst h
        rfl
      | some ci =>
        rw [hci] at h
        dsimp only at h
        cases hcr : ci.creators with
        | none =>
          rw [hcr] at h
          dsimp only at h
          simp only [Option.some.injEq] at h
          subst h
          rfl
        | some cur =>
          rw [hcr] at h
          dsimp only at h
          simp only [Option.some.injEq] at h
          subst h
          rw [hci]
          dsimp only
          rw [hcr]

theorem lifeCycles_missing_idem (c : ConfigParams) (s s₁ : EditState) (hm : c.onMissing = true)
    (h : applyField .lifeCycles c s = some s₁) : applyField .lifeCycles c s₁ = some s₁ := by
  unfold applyField updateField spdxEditDoc.lifeCycles at h ⊢
  dsimp only at h ⊢
  rw [hm] at h ⊢
  by_cases hg : (!c.shouldLifeCycle) = true
  · rw [if_pos hg] at h ⊢
  · rw [if_neg hg] at h ⊢
    by_cases hd : (!(c.subject = Subject.document)) = true
    · rw [if_pos hd] at h ⊢
    · rw [if_neg hd] at h ⊢
      simp only [if_true] at h ⊢
      by_cases hn : (s.bom.creationInfo.getD {}).creatorComment = ""
      · rw [if_pos hn] at h
        simp only [Option.some.injEq] at h
        subst h
        dsimp only
        simp only [Option.getD_some]
        by_cases hv : "lifecycle: " ++ String.intercalate "," c.lifecycles = ""
        · simp only [if_pos hv]
        · simp only [if_neg hv]
      · rw [if_neg hn] at h
        simp only [Option.some.injEq] at h
        subst h
        dsimp only
        simp only [Option.getD_some]
        rw [if_neg hn]

theorem purl_missing_idem (c : ConfigParams) (s s₁ : EditState) (hm : c.onMissing = true)
    (h : applyField .purl c s = some s₁) : applyField .purl c s₁ = some s₁ := by
  unfold applyField updateField spdxEditDoc.purl at h ⊢
  dsimp only at h ⊢
  rw [hm] at h ⊢
  by_cases hg : (!c.shouldPurl) = true
  · rw [if_pos hg] at h ⊢
  · rw [if_neg hg] at h ⊢
    by_cases hd : c.subject = Subject.document
    · rw [if_pos hd] at h ⊢
    · rw [if_neg hd] at h ⊢
      cases hp : s.pkg with
      | none => rw [hp] at h; cases h
      | some p =>
        rw [hp] at h
        simp only [if_true] at h ⊢
        by_cases hf :
            ((p.packageExternalReferences.getD []).any (fun r => r.refType = "purl")) = true
        · rw [if_neg (by simp [hf])] at h
          simp only [Option.some.injEq] at h
          subst h
          rw [hp]
          dsimp only
          rw [if_neg (by simp [hf])]
        · rw [if_pos (by simp [hf])] at h
          simp only [Option.some.injEq] at h
          subst h
          dsimp only
          simp only [Option.getD_some]
          rw [if_neg (by simp [List.any_append])]

theorem cpe_missing_idem (c : ConfigParams) (s s₁ : EditState) (hm : c.onMissing = true)
    (h : applyField .cpe c s = some s₁) : applyField .cpe c s₁ = some s₁ := by
  unfold applyField updateField spdxEditDoc.cpe at h ⊢
  dsimp only at h ⊢
  rw [hm] at h ⊢
  by_cases hg : (!c.shouldCpe) = true
  · rw [if_pos hg] at h ⊢
  · rw [if_neg hg] at h ⊢
    by_cases hd : c.subject = Subject.document
    · rw [if_pos hd] at h ⊢
    · rw [if_neg hd] at h ⊢
      cases hp : s.pkg with
      | none => rw [hp] at h; cases h
      | some p =>
        rw [hp] at h
        simp only [if_true] at h ⊢
        by_cases hf :
            ((p.packageExternalReferences.getD []).any (fun r => r.refType = "cpe23Type")) = true
        · rw [if_neg (by simp [hf])] at h
          simp only [Option.some.injEq] at h
          subst h
          rw [hp]
          dsimp only
          rw [if_neg (by simp [hf])]
        · rw [if_pos (by simp [hf])] at h
          simp only [Option.some.injEq] at h
          subst h
          dsimp only
          simp only [Option.getD_some]
          rw [if_neg (by simp [List.any_append])]

theorem creatorExists_append_left {cur : List Creator} (add : List Creator) {t : Creator}
    (h : creatorExists cur t = true) : creatorExists (cur ++ add) t = true := by
  unfold creatorExists at *
  rw [List.any_append, h]
  rfl

theorem toolsStep_fix {cur : List Creator} {t : Creator}
    (hq : creatorExists cur t = true ∨ t.creator ∈ cur.map (fun c => c.creator)) :
    (if !(creatorExists cur t) then spdxUniqueCreators cur [t] else cur) = cur := by
  by_cases he : creatorExists cur t = true
  · rw [if_neg (by simp [he])]
  · have hf : creatorExists cur t = false := by
      revert he
      cases creatorExists cur t <;> simp
    rcases hq with h | h
    · exact absurd h he
    · rw [if_pos (by simp [hf])]
      have hc : (cur.map (fun c => c.creator)).contains t.creator = true :=
        List.elem_eq_true_of_mem h
      show (if (cur.map fun c => c.creator).contains t.creator = true then cur else cur ++ [t]) = cur
      rw [if_pos hc]

theorem toolsFold_establishes :
    ∀ (ts cur : List Creator), ∀ t ∈ ts,
      creatorExists (ts.foldl
          (fun cur t => if !(creatorExists cur t) then spdxUniqueCreators cur [t] else cur) cur)
        t = true ∨
      t.creator ∈ ((ts.foldl
          (fun cur t => if !(creatorExists cur t) then spdxUniqueCreators cur [t] else cur) cur).map
            (fun c => c.creator)) := by
  intro ts
  induction ts with
  | nil => intro cur t ht; cases ht
  | cons t₀ ts ih =>
    intro cur t ht
    rw [List.foldl_cons]
    rcases List.mem_cons.1 ht with heq | hmem
    · subst heq
      have hq0 : creatorExists
            (if !(creatorExists cur t) then spdxUniqueCreators cur [t] else cur) t = true ∨
          t.creator ∈ ((if !(creatorExists cur t) then spdxUniqueCreators cur [t] else cur).map
            (fun c => c.creator)) := by
        by_cases he : creatorExists cur t = true
        · left
          rw [if_neg (by simp [he])]
          exact he
        · have hf : creatorExists cur t = false := by
            revert he
            cases creatorExists cur t <;> simp
          rw [if_pos (by simp [hf])]
          by_cases hc : (cur.map (fun c => c.creator)).contains t.creator = true
          · right
            have : spdxUniqueCreators cur [t] = cur := by
              show (if (cur.map fun c => c.creator).contains t.creator = true
                then cur else cur ++ [t]) = cur
              rw [if_pos hc]
            rw [this]
            exact List.mem_of_elem_eq_true hc
          · left
            have : spdxUniqueCreators cur [t] = cur ++ [t] := by
              show (if (cur.map fun c => c.creator).contains t.creator = true
                then cur else cur ++ [t]) = cur ++ [t]
              rw [if_neg hc]
            rw [this]
            unfold creatorExists
            rw [List.any_append]
            simp
      obtain ⟨add, hadd⟩ := toolsMissingFold_append ts
        (if !(creatorExists cur t) then spdxUniqueCreators cur [t] else cur)
      rw [hadd]
      rcases hq0 with h | h
      · exact Or.inl (creatorExists_append_left add h)
      · right
        rw [List.map_append]
        exact List.mem_append_left _ h
    · exact ih _ t hmem

theorem toolsFold_fix :
    ∀ (ts cur : List Creator),
      (∀ t ∈ ts, creatorExists cur t = true ∨ t.creator ∈ cur.map (fun c => c.creator)) →
      ts.foldl (fun cur t => if !(creatorExists cur t) then spdxUniqueCreators cur [t] else cur)
        cur = cur := by
  intro ts
  induction ts with
  | nil => intro cur _; rfl
  | cons t₀ ts ih =>
    intro cur hq
    rw [List.foldl_cons, toolsStep_fix (hq t₀ (List.mem_cons_self t₀ ts))]
    exact ih cur (fun t ht => hq t (List.mem_cons_of_mem t₀ ht))

theorem selfDisplay_mem {cs add : List Creator} {t : Creator}
    (h : (cs ++ add).any (fun cr => cr.creator = t.creator) = true) :
    t.creator ∈ (cs ++ add).map (fun c => c.creator) := by
  obtain ⟨x, hx, hxp⟩ := List.any_eq_true.1 h
  simp only [decide_eq_true_eq] at hxp
  exact hxp ▸ List.mem_map.2 ⟨x, hx, rfl⟩

theorem tools_missing_idem (c : ConfigParams) (s s₁ : EditState) (hm : c.onMissing = true)
    (hno : noExplicitSbomasm c = true)
    (h : applyField .tools c s = some s₁) : applyField .tools c s₁ = some s₁ := by
  have hfind : (spdxConstructTools c).find? (fun t => strStartsWith t.creator SBOMASM) = none := by
    rw [List.find?_eq_none]
    intro t ht
    unfold noExplicitSbomasm at hno
    have hx := List.all_eq_true.1 hno t ht
    simp only [Bool.not_eq_true'] at hx
    simp [hx]
  unfold applyField updateField spdxEditDoc.tools at h ⊢
  dsimp only at h ⊢
  rw [hfind] at h ⊢
  simp only [Option.getD_none, Option.isSome_none, Bool.false_eq_true, if_false] at h ⊢
  rw [if_pos hm] at h ⊢
  simp only [Option.some.injEq] at h
  subst h
  dsimp only
  simp only [Option.getD_some]
  obtain ⟨a2, hstep, hpres⟩ := selfStamp_step
    ((spdxConstructTools c).foldl
      (fun cur t => if !(creatorExists cur t) then spdxUniqueCreators cur [t] else cur)
      ((s.bom.creationInfo.getD {}).creators.getD []))
    { creatorType := "Tool", creator := SBOMASM ++ "-" ++ SBOMASM_VERSION }
  have hfix : (spdxConstructTools c).foldl
      (fun cur t => if !(creatorExists cur t) then spdxUniqueCreators cur [t] else cur)
      (if !(creatorExists ((spdxConstructTools c).foldl
          (fun cur t => if !(creatorExists cur t) then spdxUniqueCreators cur [t] else cur)
          ((s.bom.creationInfo.getD {}).creators.getD []))
          { creatorType := "Tool", creator := SBOMASM ++ "-" ++ SBOMASM_VERSION })
        then spdxUniqueCreators ((spdxConstructTools c).foldl
          (fun cur t => if !(creatorExists cur t) then spdxUniqueCreators cur [t] else cur)
          ((s.bom.creationInfo.getD {}).creators.getD []))
          [{ creatorType := "Tool", creator := SBOMASM ++ "-" ++ SBOMASM_VERSION }]
        else ((spdxConstructTools c).foldl
          (fun cur t => if !(creatorExists cur t) then spdxUniqueCreators cur [t] else cur)
          ((s.bom.creationInfo.getD {}).creators.getD []))) =
      (if !(creatorExists ((spdxConstructTools c).foldl
          (fun cur t => if !(creatorExists cur t) then spdxUniqueCreators cur [t] else cur)
          ((s.bom.creationInfo.getD {}).creators.getD []))
          { creatorType := "Tool", creator := SBOMASM ++ "-" ++ SBOMASM_VERSION })
        then spdxUniqueCreators ((spdxConstructTools c).foldl
          (fun cur t => if !(creatorExists cur t) then spdxUniqueCreators cur [t] else cur)
          ((s.bom.creationInfo.getD {}).creators.getD []))
          [{ creatorType := "Tool", creator := SBOMASM ++ "-" ++ SBOMASM_VERSION }]
        else ((spdxConstructTools c).foldl
          (fun cur t => if !(creatorExists cur t) then spdxUniqueCreators cur [t] else cur)
          ((s.bom.creationInfo.getD {}).creators.getD []))) := by
    apply toolsFold_fix
    intro t ht
    have hq := toolsFold_establishes (spdxConstructTools c)
      ((s.bom.creationInfo.getD {}).creators.getD []) t ht
    rw [hstep]
    rcases hq with hq | hq
    · exact Or.inl (creatorExists_append_left a2 hq)
    · right
      rw [List.map_append]
      exact List.mem_append_left _ hq
  rw [hfix]
  rw [toolsStep_fix (Or.inr (by rw [hstep]; exact selfDisplay_mem (by rw [← hstep]; exact hstep ▸ hpres)))]

/-! ### Substitution and rewrite-characterization lemmas (C6) -/

theorem substApply_of_find_none {σ : List (EId × EId)} {x : EId}
    (h : σ.find? (fun pr => pr.1 == x) = none) : substApply σ x = x := by
  unfold substApply
  rw [h]

theorem substApply_of_find_some {σ : List (EId × EId)} {x : EId} {pr : EId × EId}
    (h : σ.find? (fun pr => pr.1 == x) = some pr) : substApply σ x = pr.2 := by
  unfold substApply
  rw [h]

theorem substApply_append_of_none {σ τ : List (EId × EId)} {x : EId}
    (h : σ.find? (fun pr => pr.1 == x) = none) :
    substApply (σ ++ τ) x = substApply τ x := by
  unfold substApply
  rw [List.find?_append, h]
  rfl

theorem substApply_append_of_some {σ τ : List (EId × EId)} {x : EId} {pr : EId × EId}
    (h : σ.find? (fun pr => pr.1 == x) = some pr) :
    substApply (σ ++ τ) x = pr.2 := by
  unfold substApply
  rw [List.find?_append, h]
  rfl

theorem substApply_singleton (a b x : EId) :
    substApply [(a, b)] x = if x = a then b else x := by
  by_cases hx : x = a
  · subst hx
    rw [if_pos rfl]
    exact substApply_of_find_some (List.find?_cons_of_pos _ (by simp))
  · rw [if_neg hx]
    refine substApply_of_find_none ?_
    rw [List.find?_cons_of_neg _ (by simp [Ne.symm hx])]
    rfl

theorem substApply_eq_input {σ : List (EId × EId)} (hf : substFresh σ) {t : EId}
    (ht : t.isOrigB = true) (hk : t ∉ substKeys σ) (x : EId) :
    substApply σ x = t ↔ x = t := by
  constructor
  · intro hx
    cases hfind : σ.find? (fun pr => pr.1 == x) with
    | none => rw [substApply_of_find_none hfind] at hx; exact hx
    | some pr =>
      rw [substApply_of_find_some hfind] at hx
      obtain ⟨k, hk2⟩ := hf pr (List.mem_of_find?_eq_some hfind)
      rw [hk2] at hx
      rw [← hx] at ht
      simp [EId.isOrigB] at ht
  · intro hx
    rw [hx]
    cases hfind : σ.find? (fun pr => pr.1 == t) with
    | none => exact substApply_of_find_none hfind
    | some pr =>
      exfalso
      apply hk
      have hpred := List.find?_some hfind
      simp only [beq_iff_eq] at hpred
      exact hpred ▸ List.mem_map.2 ⟨pr, List.mem_of_find?_eq_some hfind, rfl⟩

theorem substApply_ne_of_key {σ : List (EId × EId)} (hf : substFresh σ) {t : EId}
    (ht : t.isOrigB = true) (hkey : t ∈ substKeys σ) (x : EId) :
    substApply σ x ≠ t := by
  intro hx
  cases hfind : σ.find? (fun pr => pr.1 == x) with
  | none =>
    rw [substApply_of_find_none hfind] at hx
    subst hx
    have hsome : (σ.find? (fun pr => pr.1 == x)).isSome = true := by
      rw [List.find?_isSome]
      obtain ⟨pr, hpr, hpr1⟩ := List.mem_map.1 hkey
      exact ⟨pr, hpr, by simp [hpr1]⟩
    rw [hfind] at hsome
    cases hsome
  | some pr =>
    rw [substApply_of_find_some hfind] at hx
    obtain ⟨k, hk2⟩ := hf pr (List.mem_of_find?_eq_some hfind)
    rw [hk2] at hx
    rw [← hx] at ht
    simp [EId.isOrigB] at ht

theorem substApply_key {σ : List (EId × EId)} :
    ∀ (hnd : (substKeys σ).Nodup) {k v : EId}, (k, v) ∈ σ → substApply σ k = v := by
  induction σ with
  | nil => intro _ k v hmem; cases hmem
  | cons pr σ ih =>
    intro hnd k v hmem
    have hnd2 : (pr.1 :: substKeys σ).Nodup := hnd
    rcases List.mem_cons.1 hmem with heq | hmem2
    · rw [← heq]
      exact substApply_of_find_some (List.find?_cons_of_pos _ (by simp))
    · have hkmem : k ∈ substKeys σ := List.mem_map.2 ⟨(k, v), hmem2, rfl⟩
      have hne : (pr.1 == k) = false := by
        simp only [beq_eq_false_iff_ne, ne_eq]
        intro hc
        apply (List.nodup_cons.1 hnd2).1
        rw [hc]
        exact hkmem
      have hstep : substApply (pr :: σ) k = substApply σ k := by
        unfold substApply
        rw [List.find?_cons, hne]
      rw [hstep]
      exact ih (List.nodup_cons.1 hnd2).2 hmem2

theorem substApply_snoc {σ : List (EId × EId)} (hf : substFresh σ) {oldId nid : EId}
    (hold : oldId.isOrigB = true) (x : EId) :
    (if substApply σ x = oldId then nid else substApply σ x) =
      substApply (σ ++ [(oldId, nid)]) x := by
  cases hfind : σ.find? (fun pr => pr.1 == x) with
  | some pr =>
    obtain ⟨k, hk2⟩ := hf pr (List.mem_of_find?_eq_some hfind)
    rw [substApply_of_find_some hfind, substApply_append_of_some hfind,
      if_neg (by rw [hk2]; intro hc; rw [← hc] at hold; simp [EId.isOrigB] at hold)]
  | none =>
    rw [substApply_of_find_none hfind, substApply_append_of_none hfind, substApply_singleton]

theorem mapEnds_congr {f g : EId → EId} (h : ∀ x, f x = g x) (r : Rel) :
    mapEnds f r = mapEnds g r := by
  unfold mapEnds
  rw [h r.refA.elementRefID, h r.refB.elementRefID]

theorem filterMap_id_map_optmap (g : Rel → Rel) (l : List (Option Rel)) :
    (l.map (Option.map g)).filterMap id = (l.filterMap id).map g := by
  induction l with
  | nil => rfl
  | cons o t ih => cases o <;> simp [ih]

theorem filter_describes_map_mapEnds (f : EId → EId) (l : List Rel) :
    (l.map (mapEnds f)).filter (fun r => r.relationship = .describes) =
      (l.filter (fun r => r.relationship = .describes)).map (mapEnds f) := by
  induction l with
  | nil => rfl
  | cons r t ih =>
    show List.filter _ (mapEnds f r :: _) = _
    by_cases hr : r.relationship = RelType.describes
    · rw [List.filter_cons_of_pos (by simpa [mapEnds] using hr),
        List.filter_cons_of_pos (by simpa using hr), List.map_cons, ih]
    · rw [List.filter_cons_of_neg (by simpa [mapEnds] using hr),
        List.filter_cons_of_neg (by simpa using hr), ih]

theorem descRelsOf_map_mapEnds (f : EId → EId) (rels : List (Option Rel)) :
    descRelsOf (rels.map (Option.map (mapEnds f))) = (descRelsOf rels).map (mapEnds f) := by
  unfold descRelsOf
  rw [filterMap_id_map_optmap, filter_describes_map_mapEnds]

theorem isDescribed_map_subst {σ : List (EId × EId)} (hf : substFresh σ) {p : MPackage}
    (hporig : (p.packageSPDXIdentifier).isOrigB = true)
    (hk : p.packageSPDXIdentifier ∉ substKeys σ) (descRels : List Rel) :
    isDescribedPackage p (descRels.map (mapEnds (substApply σ))) =
      isDescribedPackage p descRels := by
  unfold isDescribedPackage
  induction descRels with
  | nil => rfl
  | cons r t ih =>
    rw [List.map_cons, List.any_cons, List.any_cons, ih]
    dsimp only [mapEnds]
    congr 1
    simp only [decide_eq_decide]
    exact substApply_eq_input hf hporig hk r.refB.elementRefID

theorem describedSubst_fresh (rels0 : List (Option Rel)) :
    ∀ (ps : List MPackage) (n : Nat), substFresh (describedSubst rels0 n ps) := by
  intro ps
  induction ps with
  | nil => intro n pr hpr; cases hpr
  | cons p ps ih =>
    intro n pr hpr
    unfold describedSubst at hpr
    by_cases hd : isDescribedPackage p (descRelsOf rels0) = true
    · rw [if_pos hd] at hpr
      rcases List.mem_cons.1 hpr with heq | hmem
      · exact ⟨n, by rw [heq]⟩
      · exact ih (n + 1) pr hmem
    · rw [if_neg hd] at hpr
      exact ih n pr hpr

theorem describedSubst_keys_sublist (rels0 : List (Option Rel)) :
    ∀ (ps : List MPackage) (n : Nat),
      List.Sublist (substKeys (describedSubst rels0 n ps))
        (ps.map (fun p => p.packageSPDXIdentifier)) := by
  intro ps
  induction ps with
  | nil => intro n; exact List.Sublist.refl _
  | cons p ps ih =>
    intro n
    unfold describedSubst
    by_cases hd : isDescribedPackage p (descRelsOf rels0) = true
    · rw [if_pos hd]
      exact List.Sublist.cons₂ _ (ih (n + 1))
    · rw [if_neg hd]
      exact List.Sublist.cons _ (ih n)

theorem describedSubst_mem (rels0 : List (Option Rel)) :
    ∀ (ps : List MPackage) (n : Nat) (p : MPackage), p ∈ ps →
      isDescribedPackage p (descRelsOf rels0) = true →
      ∃ k, (p.packageSPDXIdentifier, EId.newPkg k) ∈ describedSubst rels0 n ps := by
  intro ps
  induction ps with
  | nil => intro n p hp; cases hp
  | cons q ps ih =>
    intro n p hp hd
    unfold describedSubst
    rcases List.mem_cons.1 hp with heq | hmem
    · subst heq
      rw [if_pos hd]
      exact ⟨n, List.mem_cons_self _ _⟩
    · by_cases hq : isDescribedPackage q (descRelsOf rels0) = true
      · rw [if_pos hq]
        obtain ⟨k, hk⟩ := ih (n + 1) p hmem hd
        exact ⟨k, List.mem_cons_of_mem _ hk⟩
      · rw [if_neg hq]
        exact ih n p hmem hd

theorem rels_comp {σ : List (EId × EId)} (hf : substFresh σ) {oldId nid : EId}
    (hold : oldId.isOrigB = true) (rels0 : List (Option Rel)) :
    (rels0.map (Option.map (mapEnds (substApply σ)))).map (Option.map (rewriteRel oldId nid)) =
      rels0.map (Option.map (mapEnds (substApply (σ ++ [(oldId, nid)])))) := by
  rw [List.map_map]
  congr 1
  funext o
  cases o with
  | none => rfl
  | some r =>
    show some (rewriteRel oldId nid (mapEnds (substApply σ) r)) = _
    rw [rewriteRel_eq_mapEnds, mapEnds_comp]
    exact congrArg some (mapEnds_congr (fun x => substApply_snoc hf hold x) r)

theorem ingest_char (pc : MPackage) (rels0 : List (Option Rel)) :
    ∀ (ps : List MPackage) (σ0 : List (EId × EId)) (ist : IngestState),
      (∀ p ∈ ps, (p.packageSPDXIdentifier).isOrigB = true) →
      (ps.map (fun p => p.packageSPDXIdentifier)).Nodup →
      substFresh σ0 →
      (∀ p ∈ ps, p.packageSPDXIdentifier ∉ substKeys σ0) →
      ps.foldl (processPkg pc) (ist, rels0.map (Option.map (mapEnds (substApply σ0)))) =
        ({ pkgs := ist.pkgs ++ ingestClones rels0 ist.fresh ps,
           deps := ist.deps ++ containsRelsOf pc (describedSubst rels0 ist.fresh ps),
           fresh := ist.fresh + (describedSubst rels0 ist.fresh ps).length },
         rels0.map (Option.map (mapEnds
           (substApply (σ0 ++ describedSubst rels0 ist.fresh ps))))) := by
  intro ps
  induction ps with
  | nil =>
    intro σ0 ist _ _ _ _
    unfold ingestClones describedSubst containsRelsOf
    simp
  | cons p ps ih =>
    intro σ0 ist hids hnd hf hk
    rw [List.foldl_cons]
    have hporig : (p.packageSPDXIdentifier).isOrigB = true := hids p (List.mem_cons_self _ _)
    have hpk : p.packageSPDXIdentifier ∉ substKeys σ0 := hk p (List.mem_cons_self _ _)
    have hcond : isDescribedPackage p
        (descRelsOf (rels0.map (Option.map (mapEnds (substApply σ0))))) =
        isDescribedPackage p (descRelsOf rels0) := by
      rw [descRelsOf_map_mapEnds]
      exact isDescribed_map_subst hf hporig hpk _
    have hids' : ∀ q ∈ ps, (q.packageSPDXIdentifier).isOrigB = true :=
      fun q hq => hids q (List.mem_cons_of_mem p hq)
    have hnd' : (ps.map (fun q => q.packageSPDXIdentifier)).Nodup :=
      (List.nodup_cons.1 hnd).2
    have hpnotin : p.packageSPDXIdentifier ∉ ps.map (fun q => q.packageSPDXIdentifier) :=
      (List.nodup_cons.1 hnd).1
    by_cases hd : isDescribedPackage p (descRelsOf rels0) = true
    · have hstep : processPkg pc (ist, rels0.map (Option.map (mapEnds (substApply σ0)))) p =
          ({ pkgs := ist.pkgs ++ [{ p with packageSPDXIdentifier := EId.newPkg ist.fresh }],
             deps := ist.deps ++
               [{ refA := { documentRefID := "", elementRefID := pc.packageSPDXIdentifier },
                  refB := { documentRefID := "", elementRefID := EId.newPkg ist.fresh },
                  relationship := .contains }],
             fresh := ist.fresh + 1 },
           rels0.map (Option.map (mapEnds (substApply (σ0 ++
             [(p.packageSPDXIdentifier, EId.newPkg ist.fresh)]))))) := by
        unfold processPkg
        dsimp only
        rw [hcond, if_pos hd, rels_comp hf hporig]
      rw [hstep]
      have hf' : substFresh (σ0 ++ [(p.packageSPDXIdentifier, EId.newPkg ist.fresh)]) := by
        intro pr hpr
        rcases List.mem_append.1 hpr with hin | hin
        · exact hf pr hin
        · exact ⟨ist.fresh, by rw [List.mem_singleton.1 hin]⟩
      have hk' : ∀ q ∈ ps, q.packageSPDXIdentifier ∉
          substKeys (σ0 ++ [(p.packageSPDXIdentifier, EId.newPkg ist.fresh)]) := by
        intro q hq hmem
        unfold substKeys at hmem
        rw [List.map_append] at hmem
        rcases List.mem_append.1 hmem with hin | hin
        · exact hk q (List.mem_cons_of_mem p hq) hin
        · have hqp : q.packageSPDXIdentifier = p.packageSPDXIdentifier := by
            simpa using hin
          exact hpnotin (hqp ▸ List.mem_map.2 ⟨q, hq, rfl⟩)
      rw [ih (σ0 ++ [(p.packageSPDXIdentifier, EId.newPkg ist.fresh)])
        { pkgs := ist.pkgs ++ [{ p with packageSPDXIdentifier := EId.newPkg ist.fresh }],
          deps := ist.deps ++
            [{ refA := { documentRefID := "", elementRefID := pc.packageSPDXIdentifier },
               refB := { documentRefID := "", elementRefID := EId.newPkg ist.fresh },
               relationship := .contains }],
          fresh := ist.fresh + 1 } hids' hnd' hf' hk']
      have hds : describedSubst rels0 ist.fresh (p :: ps) =
          (p.packageSPDXIdentifier, EId.newPkg ist.fresh) ::
            describedSubst rels0 (ist.fresh + 1) ps := by
        simp only [describedSubst]
        rw [if_pos hd]
      have hcl : ingestClones rels0 ist.fresh (p :: ps) =
          { p with packageSPDXIdentifier := EId.newPkg ist.fresh } ::
            ingestClones rels0 (ist.fresh + 1) ps := by
        simp only [ingestClones]
        rw [if_pos hd]
      rw [hds, hcl]
      dsimp only
      congr 1
      · congr 1
        · rw [List.append_assoc]
          rfl
        · rw [List.append_assoc]
          rfl
        · rw [List.length_cons]
          omega
      · rw [List.append_assoc]
        rfl
    · have hstep : processPkg pc (ist, rels0.map (Option.map (mapEnds (substApply σ0)))) p =
          ({ pkgs := ist.pkgs ++ [p], deps := ist.deps, fresh := ist.fresh },
           rels0.map (Option.map (mapEnds (substApply σ0)))) := by
        unfold processPkg
        dsimp only
        rw [hcond, if_neg hd]
      rw [hstep]
      have hk2 : ∀ q ∈ ps, q.packageSPDXIdentifier ∉ substKeys σ0 :=
        fun q hq => hk q (List.mem_cons_of_mem p hq)
      rw [ih σ0 { pkgs := ist.pkgs ++ [p], deps := ist.deps, fresh := ist.fresh }
        hids' hnd' hf hk2]
      have hds : describedSubst rels0 ist.fresh (p :: ps) =
          describedSubst rels0 ist.fresh ps := by
        simp only [describedSubst]
        rw [if_neg hd]
      have hcl : ingestClones rels0 ist.fresh (p :: ps) =
          p :: ingestClones rels0 ist.fresh ps := by
        simp only [ingestClones]
        rw [if_neg hd]
      rw [hds, hcl]
      dsimp only
      congr 1
      congr 1
      rw [List.append_assoc]
      rfl

theorem substApply_nil_map (l : List (Option Rel)) :
    l.map (Option.map (mapEnds (substApply []))) = l := by
  have h : ∀ r, mapEnds (substApply []) r = r := fun r => by
    rw [mapEnds_congr (fun x => rfl) r]
    exact mapEnds_id r
  induction l with
  | nil => rfl
  | cons o t iht => cases o <;> simp [h, iht]

theorem docs_char (pc : MPackage) :
    ∀ (ins : List MDoc) (st : IngestState) (acc : List MDoc),
      (∀ d ∈ ins, wfDoc d) →
      ∃ (stF : IngestState) (insF : List MDoc) (ext : List Rel),
        ins.foldl (processDoc pc) (st, acc) = (stF, acc ++ insF) ∧
        stF.deps = st.deps ++ ext ∧
        List.Forall₂ (fun d d' =>
          wfDoc d ∧
          ∃ σ, substFresh σ ∧ (substKeys σ).Nodup ∧
            (∀ p ∈ d.packages,
              isDescribedPackage p (descRelsOf d.relationships) = true →
                ∃ k, (p.packageSPDXIdentifier, EId.newPkg k) ∈ σ) ∧
            d' = { d with relationships :=
                     d.relationships.map (Option.map (mapEnds (substApply σ))) } ∧
            (∀ rel ∈ containsRelsOf pc σ, rel ∈ stF.deps))
          ins insF := by
  intro ins
  induction ins with
  | nil =>
    intro st acc _
    exact ⟨st, [], [], by simp, by simp, List.Forall₂.nil⟩
  | cons d ins ih =>
    intro st acc hwf
    have hwfd : wfDoc d := hwf d (List.mem_cons_self _ _)
    have hfz : substFresh ([] : List (EId × EId)) :=
      fun pr hpr => absurd hpr (List.not_mem_nil _)
    have hkz : ∀ p ∈ d.packages,
        p.packageSPDXIdentifier ∉ substKeys ([] : List (EId × EId)) :=
      fun p _ h => absurd h (List.not_mem_nil _)
    have hchar := ingest_char pc d.relationships d.packages [] st hwfd.1 hwfd.2 hfz hkz
    rw [substApply_nil_map, List.nil_append] at hchar
    have hstep : processDoc pc (st, acc) d =
        ({ pkgs := st.pkgs ++ ingestClones d.relationships st.fresh d.packages,
           deps := st.deps ++
             containsRelsOf pc (describedSubst d.relationships st.fresh d.packages),
           fresh := st.fresh +
             (describedSubst d.relationships st.fresh d.packages).length },
         acc ++ [{ d with relationships := d.relationships.map (Option.map (mapEnds
           (substApply (describedSubst d.relationships st.fresh d.packages)))) }]) := by
      unfold processDoc
      dsimp only
      rw [hchar]
    have hwf2 : ∀ e ∈ ins, wfDoc e := fun e he => hwf e (List.mem_cons_of_mem d he)
    obtain ⟨stF, insF, ext, hfold, hdeps, hforall⟩ := ih
      { pkgs := st.pkgs ++ ingestClones d.relationships st.fresh d.packages,
        deps := st.deps ++
          containsRelsOf pc (describedSubst d.relationships st.fresh d.packages),
        fresh := st.fresh +
          (describedSubst d.relationships st.fresh d.packages).length }
      (acc ++ [{ d with relationships := d.relationships.map (Option.map (mapEnds
        (substApply (describedSubst d.relationships st.fresh d.packages)))) }]) hwf2
    have hdepsF : stF.deps = st.deps ++
        (containsRelsOf pc (describedSubst d.relationships st.fresh d.packages) ++ ext) := by
      rw [hdeps]
      dsimp only
      rw [List.append_assoc]
    refine ⟨stF,
      { d with relationships := d.relationships.map (Option.map (mapEnds
          (substApply (describedSubst d.relationships st.fresh d.packages)))) } :: insF,
      containsRelsOf pc (describedSubst d.relationships st.fresh d.packages) ++ ext,
      ?_, hdepsF, ?_⟩
    · rw [List.foldl_cons, hstep, hfold, List.append_assoc]
      rfl
    · refine List.Forall₂.cons ⟨hwfd,
        describedSubst d.relationships st.fresh d.packages,
        describedSubst_fresh d.relationships d.packages st.fresh,
        hwfd.2.sublist (describedSubst_keys_sublist d.relationships d.packages st.fresh),
        fun p hp hdp => describedSubst_mem d.relationships d.packages st.fresh p hp hdp,
        rfl, ?_⟩ hforall
      intro rel hrel
      rw [hdepsF]
      exact List.mem_append_right st.deps (List.mem_append_left ext hrel)

/-! ## Claim theorems -/

/-- C1: the claim states that the cpe field update under the overwrite
policy removes every existing cpe23Type reference and then adds exactly
one, leaving at most one.  The code's removal predicate compares the
lower-cased ref type to the mixed-case literal "cpe23Type" and therefore
never matches: at the failing input the update leaves two cpe23Type
references on the component. -/
theorem C1_cpe_overwrite_retains_existing :
    (match spdxEditDoc.cpe c1cfg c1state with
     | .ok s => ((s.pkg.getD {}).packageExternalReferences.getD []).countP
         (fun r => r.refType == "cpe23Type")
     | _ => 0) = 2 := by rfl

/-- C2: the claim states that the update loop never aborts, in particular
when a component-scoped field is configured but no component was
resolved.  The code dereferences the nil resolved package inside the name
handler and panics, aborting the whole update (modelled as `none`). -/
theorem C2_nil_resolved_component_aborts_update :
    update c2cfg c2state = none := by rfl

/-- C3 counterexample: for inputs with license-list versions "3.19" and
"3.20" the merge selects the semver-least candidate but emits it through
the semver normalized rendering, producing "3.19.0", not the verbatim
"3.19" the claim states. -/
theorem C3_license_selection_counterexample :
    initOutBomLicenseListVersion [bomWithLLV "3.19", bomWithLLV "3.20"] = some "3.19.0" ∧
      some "3.19.0" ≠ some ("3.19" : String) := by
  refine ⟨by decide, by decide⟩

/-- C3 amended: the merge's license-list selection coincides with the
amended specification: deduplicate the per-input values (the empty
placeholder included); with more than one distinct value parse all as
semantic versions (failure is fatal) and emit the least in normalized
major.minor.patch form; with exactly one distinct non-blank value use it
verbatim; otherwise the "3.19" baseline. -/
theorem C3_license_selection_amended :
    ∀ ins : List MDoc,
      initOutBomLicenseListVersion ins =
        licenseListVersionSpec (ins.map licenseListVersionOfBom) := by
  intro ins
  unfold initOutBomLicenseListVersion licenseListVersionSpec
  dsimp only
  split
  case isTrue hlen =>
    cases hm : mapOptionAll semverNewVersion (uniqKeepFirst (ins.map licenseListVersionOfBom)) with
    | none => rfl
    | some vs =>
      cases vs with
      | nil =>
        exfalso
        have hl := mapOptionAll_length hm
        simp at hl
        omega
      | cons v rest =>
        obtain ⟨m, srest, hsort, hmem, hmin⟩ := sortSemver_head_min (v :: rest) (by simp)
        obtain ⟨hmem2, hmin2⟩ := foldlMin_spec rest v
        have heq : m = rest.foldl (fun x y => if semverLeB y x = true then y else x) v :=
          semverLeB_antisymm (hmin _ hmem2) (hmin2 _ hmem)
        dsimp only
        rw [hsort, heq]
  case isFalse hlen => rfl

/-- C4 counterexample: the hierarchical merge rewrites the input
document's relationship endpoints in place, so after the merge the input
list differs from what was loaded. -/
theorem C4_input_mutated_counterexample :
    (hierarchicalMerge {} [c4doc]).ins ≠ [c4doc] := by decide

/-- C5 counterexample: with no explicitly configured sbomasm tool, a
stale Tool entry "sbomasm-0.1.0" is not removed by the tools update, so
afterwards two Tool-typed creators with the tool name sbomasm coexist —
the claim's "never two Tool-typed entries with the same tool name" fails. -/
theorem C5_stale_self_entry_retained_counterexample :
    (match spdxEditDoc.tools c5cfg c5state with
     | .ok s => (creatorsOfState s).countP
         (fun cr => cr.creatorType == "Tool" && strStartsWith cr.creator "sbomasm")
     | _ => 0) = 2 := by rfl

/-- C5 amended: with no explicitly configured sbomasm-prefixed tool
entry, the tools update succeeds, only appends creator entries (so
nothing, including a stale self-entry, is removed), and afterwards a
creator entry whose display string is the running tool's name-version is
present. -/
theorem C5_tools_self_stamp_amended :
    ∀ (c : ConfigParams) (s : EditState),
      noExplicitSbomasm c = true →
      ∃ s' adds, spdxEditDoc.tools c s = .ok s' ∧
        creatorsOfState s' = creatorsOfState s ++ adds ∧
        (creatorsOfState s').any (fun cr => cr.creator = sbomasmSelfName) = true := by
  intro c s hno
  have hfind : (spdxConstructTools c).find? (fun t => strStartsWith t.creator SBOMASM) = none := by
    rw [List.find?_eq_none]
    intro t ht
    unfold noExplicitSbomasm at hno
    have h := List.all_eq_true.1 hno t ht
    simp only [Bool.not_eq_true'] at h
    simp [h]
  unfold spdxEditDoc.tools
  dsimp only
  rw [hfind]
  simp only [Option.getD_none, Option.isSome_none, Bool.false_eq_true, if_false]
  by_cases hm : c.onMissing = true
  · rw [if_pos hm]
    obtain ⟨a1, ha1⟩ := toolsMissingFold_append (spdxConstructTools c)
      ((s.bom.creationInfo.getD {}).creators.getD [])
    rw [ha1]
    obtain ⟨a2, hstep, hpres⟩ := selfStamp_step
      (((s.bom.creationInfo.getD {}).creators.getD []) ++ a1)
      { creatorType := "Tool", creator := SBOMASM ++ "-" ++ SBOMASM_VERSION }
    rw [hstep]
    refine ⟨_, a1 ++ a2, rfl, ?_, ?_⟩
    · show (((s.bom.creationInfo.getD {}).creators.getD []) ++ a1) ++ a2 =
        creatorsOfState s ++ (a1 ++ a2)
      rw [List.append_assoc]
      rfl
    · exact hpres
  · rw [if_neg hm]
    obtain ⟨a1, ha1⟩ := spdxUniqueCreators_append
      ((s.bom.creationInfo.getD {}).creators.getD []) (spdxConstructTools c)
    rw [ha1]
    obtain ⟨a2, hstep, hpres⟩ := selfStamp_step
      (((s.bom.creationInfo.getD {}).creators.getD []) ++ a1)
      { creatorType := "Tool", creator := SBOMASM ++ "-" ++ SBOMASM_VERSION }
    rw [hstep]
    refine ⟨_, a1 ++ a2, rfl, ?_, ?_⟩
    · show (((s.bom.creationInfo.getD {}).creators.getD []) ++ a1) ++ a2 =
        creatorsOfState s ++ (a1 ++ a2)
      rw [List.append_assoc]
      rfl
    · exact hpres

/-- C5 amended witness: instantiated at the stale-entry input with the
no-explicit-sbomasm hypothesis discharged by computation. -/
theorem C5_tools_self_stamp_amended_witness :
    noExplicitSbomasm c5cfg = true ∧
      ∃ s' adds, spdxEditDoc.tools c5cfg c5state = .ok s' ∧
        creatorsOfState s' = creatorsOfState c5state ++ adds ∧
        (creatorsOfState s').any (fun cr => cr.creator = sbomasmSelfName) = true :=
  ⟨by decide, C5_tools_self_stamp_amended c5cfg c5state (by decide)⟩

/-- C6 counterexample: input B's relationship references "X", the
original identifier of input A's described package; the merge renames
that package (no output package carries "X") but leaves B's reference
untouched, so the output contains a stale reference to a described
component's original identifier. -/
theorem C6_cross_input_stale_reference_counterexample :
    (some { refA := { elementRefID := .orig "Z" }, refB := { elementRefID := .orig "X" },
            relationship := .contains : Rel })
        ∈ (hierarchicalMerge {} [c4doc, c6docB]).out.relationships ∧
      isDescribedPackage pkgX (descRelsOf c4doc.relationships) = true ∧
      ∀ p ∈ (hierarchicalMerge {} [c4doc, c6docB]).out.packages,
        p.packageSPDXIdentifier ≠ .orig "X" := by decide

/-- C6 amended: for every list of well-formed inputs (input-supplied,
per-document distinct package identifiers), every described component of
every input has a freshly minted identifier such that the root CONTAINS
edge to it appears in the output, this input's relationship list is
pointwise rewritten to it (either endpoint checked independently, nil
entries and kinds untouched), and no relationship of this same input
still references the original identifier afterwards. -/
theorem C6_relationship_rewrite_amended (ms : MergeSettings) (ins : List MDoc)
    (hwf : ∀ d ∈ ins, wfDoc d) : rewriteOk ms ins := by
  obtain ⟨stF, insF, ext, hfold, hdeps, hforall⟩ :=
    docs_char (setupPrimaryComp ms) ins
      { pkgs := [setupPrimaryComp ms],
        deps := [{ refA := { documentRefID := "", elementRefID := .document },
                   refB := { documentRefID := "",
                             elementRefID := (setupPrimaryComp ms).packageSPDXIdentifier },
                   relationship := .describes }],
        fresh := 0 } [] hwf
  rw [List.nil_append] at hfold
  unfold rewriteOk
  dsimp only
  unfold hierarchicalMerge
  dsimp only
  rw [hfold]
  dsimp only
  refine List.Forall₂.imp ?_ hforall
  rintro d d' ⟨hwfd, σ, hfr, hndk, hmem, hd'eq, hcont⟩
  intro p hp hdesc
  obtain ⟨k, hk⟩ := hmem p hp hdesc
  have hkeymem : p.packageSPDXIdentifier ∈ substKeys σ :=
    List.mem_map.2 ⟨(p.packageSPDXIdentifier, EId.newPkg k), hk, rfl⟩
  have horig : (p.packageSPDXIdentifier).isOrigB = true := hwfd.1 p hp
  have hsub : substApply σ p.packageSPDXIdentifier = EId.newPkg k :=
    substApply_key hndk hk
  refine ⟨EId.newPkg k, ⟨k, rfl⟩, ?_, ?_, ?_⟩
  · have hrel : ({ refA := { documentRefID := "",
                             elementRefID := (setupPrimaryComp ms).packageSPDXIdentifier },
                   refB := { documentRefID := "", elementRefID := EId.newPkg k },
                   relationship := .contains } : Rel) ∈ containsRelsOf (setupPrimaryComp ms) σ :=
      List.mem_map.2 ⟨(p.packageSPDXIdentifier, EId.newPkg k), hk, rfl⟩
    exact List.mem_append_left _ (List.mem_map.2 ⟨_, hcont _ hrel, rfl⟩)
  · rw [hd'eq]
    dsimp only
    rw [List.forall₂_map_right_iff, List.forall₂_same]
    intro ro _
    cases ro with
    | none => exact trivial
    | some o =>
      refine ⟨?_, ?_, rfl⟩
      · intro h
        show substApply σ o.refA.elementRefID = EId.newPkg k
        rw [h]
        exact hsub
      · intro h
        show substApply σ o.refB.elementRefID = EId.newPkg k
        rw [h]
        exact hsub
  · rw [hd'eq]
    dsimp only
    intro ro hro rel hrel
    obtain ⟨ro0, _, hro0⟩ := List.mem_map.1 hro
    subst hro0
    cases ro0 with
    | none => cases hrel
    | some o =>
      have hrel2 : rel = mapEnds (substApply σ) o := by
        injection hrel with h
        exact h.symm
      subst hrel2
      exact ⟨substApply_ne_of_key hfr horig hkeymem _,
             substApply_ne_of_key hfr horig hkeymem _⟩

/-- Witness for the amended C6 at the concrete two-input failing scenario
of the stale-reference counterexample: both inputs are well formed, so
the per-input rewrite contract holds for them. -/
theorem C6_relationship_rewrite_amended_witness :
    (∀ d ∈ [c4doc, c6docB], wfDoc d) ∧ rewriteOk {} [c4doc, c6docB] :=
  ⟨by decide, C6_relationship_rewrite_amended {} [c4doc, c6docB] (by decide)⟩

/-- C8 counterexample: under the missing policy with an explicitly
configured sbomasm-named tool, applying the tools field update twice
rotates the creator list (the stale-removal plus re-append reorders it),
so the final state differs from a single application. -/
theorem C8_tools_missing_not_idempotent_counterexample :
    (applyField .tools c8cfg c8state).bind (applyField .tools c8cfg) ≠
      applyField .tools c8cfg c8state := by decide

/-- C8 amended: applying a field update under the missing policy twice
yields the same final document state as applying it once, for every field
of the handler table, provided that for the tools field no configured
tool entry's display string starts with the running tool's name (the
counterexample shows the property fails without that proviso). -/
theorem C8_missing_policy_idempotent_amended :
    ∀ (f : FieldName) (c : ConfigParams) (s s₁ : EditState),
      c.onMissing = true →
      (f = .tools → noExplicitSbomasm c = true) →
      applyField f c s = some s₁ →
      applyField f c s₁ = some s₁ := by
  intro f c s s₁ hm htools h
  cases f
  case name => exact name_missing_idem c s s₁ hm h
  case version => exact version_missing_idem c s s₁ hm h
  case supplier => exact supplier_missing_idem c s s₁ hm h
  case authors => exact authors_missing_idem c s s₁ hm h
  case purl => exact purl_missing_idem c s s₁ hm h
  case cpe => exact cpe_missing_idem c s s₁ hm h
  case licenses => exact licenses_missing_idem c s s₁ hm h
  case hashes => exact hashes_missing_idem c s s₁ hm h
  case tools => exact tools_missing_idem c s s₁ hm (htools rfl) h
  case copyright => exact copyright_missing_idem c s s₁ hm h
  case lifeCycles => exact lifeCycles_missing_idem c s s₁ hm h
  case description => exact description_missing_idem c s s₁ hm h
  case repository => exact repository_missing_idem c s s₁ hm h
  case typ => exact typ_missing_idem c s s₁ hm h
  case timeStamp => exact timeStamp_missing_idem c s s₁ h

/-- C8 amended witness: the idempotence instantiated at the name field on
a concrete component, hypotheses discharged by computation. -/
theorem C8_missing_policy_idempotent_amended_witness :
    (c8wcfg.onMissing = true ∧
        (FieldName.name = FieldName.tools → noExplicitSbomasm c8wcfg = true) ∧
        applyField .name c8wcfg c8wstate = some c8wstate₁) ∧
      applyField .name c8wcfg c8wstate₁ = some c8wstate₁ :=
  ⟨⟨by decide, by decide, by decide⟩,
   C8_missing_policy_idempotent_amended .name c8wcfg c8wstate c8wstate₁
     (by decide) (by decide) (by decide)⟩

/-- C7: the first relationship of the merged output is always the
DESCRIBES edge from the document to the synthesized root component, and
the root's freshly generated identifier never collides with any
identifier appearing in any input document (inputs are well formed: every
identifier they carry is input-supplied, which is what loading from a
file produces; the generated identifier is a distinct constructor,
reflecting uuid freshness). -/
theorem C7_root_describes_first_and_fresh :
    ∀ (ms : MergeSettings) (ins : List MDoc),
      (∀ id ∈ collectIds ins, EId.isInputId id = true) →
      (hierarchicalMerge ms ins).out.relationships.head? =
          some (some { refA := { documentRefID := "", elementRefID := .document },
                       refB := { documentRefID := "",
                                 elementRefID := (setupPrimaryComp ms).packageSPDXIdentifier },
                       relationship := .describes }) ∧
        ∀ id ∈ collectIds ins, id ≠ (setupPrimaryComp ms).packageSPDXIdentifier := by
  intro ms ins h
  constructor
  · obtain ⟨l, hl⟩ := docsFold_deps (setupPrimaryComp ms) ins
      ({ pkgs := [setupPrimaryComp ms],
         deps := [{ refA := { documentRefID := "", elementRefID := .document },
                    refB := { documentRefID := "",
                              elementRefID := (setupPrimaryComp ms).packageSPDXIdentifier },
                    relationship := .describes }],
         fresh := 0 }, [])
    unfold hierarchicalMerge
    dsimp only
    rw [hl]
    rfl
  · intro id hid heq
    have hinput := h id hid
    have hroot : EId.isInputId (setupPrimaryComp ms).packageSPDXIdentifier = false := rfl
    rw [heq, hroot] at hinput
    exact absurd hinput (by decide)

/-- C7 witness: the invariant instantiated at a concrete two-input merge
with the well-formedness hypothesis discharged by computation. -/
theorem C7_root_describes_first_and_fresh_witness :
    (∀ id ∈ collectIds [c4doc, c6docB], EId.isInputId id = true) ∧
      ((hierarchicalMerge {} [c4doc, c6docB]).out.relationships.head? =
          some (some { refA := { documentRefID := "", elementRefID := .document },
                       refB := { documentRefID := "",
                                 elementRefID := (setupPrimaryComp {}).packageSPDXIdentifier },
                       relationship := .describes }) ∧
        ∀ id ∈ collectIds [c4doc, c6docB], id ≠ (setupPrimaryComp {}).packageSPDXIdentifier) :=
  ⟨by decide, C7_root_describes_first_and_fresh {} [c4doc, c6docB] (by decide)⟩

/-- C4 amended: the merge never mutates an input document's packages,
files, other-license records, creation metadata or identity — each final
input document is its original value with only an endpoint map applied to
its relationship list (the in-place rewrite the source performs). -/
theorem C4_merge_mutation_scope :
    ∀ (ms : MergeSettings) (ins : List MDoc),
      List.Forall₂ (fun d d' => ∃ f,
          d' = { d with relationships := d.relationships.map (Option.map (mapEnds f)) })
        ins (hierarchicalMerge ms ins).ins := by
  intro ms ins
  obtain ⟨processed, h, hfa⟩ := docsFold_snd_shape (setupPrimaryComp ms) ins
    ({ pkgs := [setupPrimaryComp ms],
       deps := [{ refA := { documentRefID := "", elementRefID := .document },
                  refB := { documentRefID := "",
                            elementRefID := (setupPrimaryComp ms).packageSPDXIdentifier },
                  relationship := .describes }],
       fresh := 0 }, [])
  have hins : (hierarchicalMerge ms ins).ins = processed := by
    unfold hierarchicalMerge
    dsimp only
    rw [h]
    rfl
  rw [hins]
  exact hfa

/-- C9: the merge never uses a nil relationship entry: the output
relationship list contains no nil entry, and merging the inputs with
their nil relationship entries dropped produces the very same output
document (nil entries influence neither described-component detection,
nor rewriting, nor the assembled output). -/
theorem C9_nil_relationships_skipped :
    ∀ (ms : MergeSettings) (ins : List MDoc),
      (∀ r ∈ (hierarchicalMerge ms ins).out.relationships, r ≠ none) ∧
        (hierarchicalMerge ms (ins.map dropNilRels)).out = (hierarchicalMerge ms ins).out := by
  intro ms ins
  constructor
  · intro r hr
    have hshape : (hierarchicalMerge ms ins).out.relationships =
        ((ins.foldl (processDoc (setupPrimaryComp ms))
            ({ pkgs := [setupPrimaryComp ms],
               deps := [{ refA := { documentRefID := "", elementRefID := .document },
                          refB := { documentRefID := "",
                                    elementRefID := (setupPrimaryComp ms).packageSPDXIdentifier },
                          relationship := .describes }],
               fresh := 0 }, [])).1.deps.map some) ++
          ((ins.foldl (processDoc (setupPrimaryComp ms))
            ({ pkgs := [setupPrimaryComp ms],
               deps := [{ refA := { documentRefID := "", elementRefID := .document },
                          refB := { documentRefID := "",
                                    elementRefID := (setupPrimaryComp ms).packageSPDXIdentifier },
                          relationship := .describes }],
               fresh := 0 }, [])).2.map (fun d => d.relationships.filter relKeep)).flatten := rfl
    rw [hshape] at hr
    rcases List.mem_append.1 hr with hmem | hmem
    · obtain ⟨x, _, hx⟩ := List.mem_map.1 hmem
      exact hx ▸ (by simp)
    · obtain ⟨s, hs, hrs⟩ := List.mem_flatten.1 hmem
      obtain ⟨d, _, hd⟩ := List.mem_map.1 hs
      rw [← hd] at hrs
      have hkeep := (List.mem_filter.1 hrs).2
      cases r with
      | none => exact absurd hkeep (by simp [relKeep])
      | some v => simp
  · obtain ⟨h1, pO, h2, h3⟩ := docsFold_dropNil (setupPrimaryComp ms) ins
      ({ pkgs := [setupPrimaryComp ms],
         deps := [{ refA := { documentRefID := "", elementRefID := .document },
                    refB := { documentRefID := "",
                              elementRefID := (setupPrimaryComp ms).packageSPDXIdentifier },
                    relationship := .describes }],
         fresh := 0 }) [] []
    have hrels : (pO.map dropNilRels).map (fun d => d.relationships.filter relKeep) =
        pO.map (fun d => d.relationships.filter relKeep) := by
      rw [List.map_map]
      congr 1
      funext d
      show ((dropNilRels d).relationships).filter relKeep = _
      exact relKeep_filter_isSome d.relationships
    have hfiles : (pO.map dropNilRels).map (fun d => d.files) = pO.map (fun d => d.files) := by
      rw [List.map_map]
      rfl
    have hlics : (pO.map dropNilRels).map (fun d => d.otherLicenses) =
        pO.map (fun d => d.otherLicenses) := by
      rw [List.map_map]
      rfl
    unfold hierarchicalMerge
    dsimp only
    rw [h1, h3, h2, List.nil_append, List.nil_append, hrels, hfiles, hlics]

/-- C10: for every merge configuration the synthesized root component's
download location is the NOASSERTION sentinel and its analyzed-files flag
is false; no configuration value reaches either field. -/
theorem C10_root_download_location_and_files_analyzed :
    ∀ ms : MergeSettings,
      (setupPrimaryComp ms).packageDownloadLocation = "NOASSERTION" ∧
        (setupPrimaryComp ms).filesAnalyzed = false := by
  intro ms
  exact ⟨rfl, rfl⟩

end Sbomasm
